import Mathlib

/-!
# Chunked transfer coordinator (`main.go`)

A shallow embedding of the fragmenter (`splitFile`), the manifest store
(`saveHashMap`, `loadHashMap`), the upload coordinator (`uploadChunks`,
`calculateFileRootHash`), the retrieval coordinator (`downloadAndMergeChunks`)
and the entry point (`main`), followed by the properties proved about them.

Conventions of the embedding.

* A Go `string` is a list of Unicode code points (`Str`); only well-formed
  UTF-8 text is represented.  Byte-wise comparison of UTF-8 strings is
  comparison of the code point sequences, so `sort.Strings` orders `Str` by code point.
* File contents are lists of bytes.
* In `splitFile` the outcome of every local operation (`os.MkdirAll`,
  `os.Open`, `Stat`, the allocation of the buffer, `os.Create`, `Write`) is an
  input, and a `Read` returns every requested byte that is still unread.  In
  `downloadAndMergeChunks` the creation of the output file, the reading of a
  downloaded fragment and the writes to the output file succeed.  Reading the
  manifest, the `Open` and `Stat` of `calculateFileRootHash` and every
  operation of the storage backend may fail; their outcomes are inputs.
* `int64` arithmetic wraps around where the program multiplies or subtracts.
* Paths follow the Unix flavour of `path/filepath` (separator `/`).
-/

namespace Fragment

/-! ## Basic types -/

/-- One byte of file content. -/
abbrev Byte := Fin 256

/-- Go strings, as sequences of code points. -/
abbrev Str := List Char

/-- Go `map[string]string`: an association list with pairwise distinct keys. -/
abbrev GoMap := List (Str × Str)

/-- Map index expression `m[k]` used as a statement target: `m[k] = v`. -/
def mapSet : GoMap → Str → Str → GoMap
  | [], k, v => [(k, v)]
  | (k', v') :: m, k, v => if k' = k then (k, v) :: m else (k', v') :: mapSet m k v

/-- Two-valued map read `v, ok := m[k]`. -/
def mapLookup : GoMap → Str → Option Str
  | [], _ => none
  | (k', v') :: m, k => if k' = k then some v' else mapLookup m k

/-- Map read `m[k]`: the zero value `""` for an absent key. -/
def mapGet (m : GoMap) (k : Str) : Str :=
  (mapLookup m k).getD []

/-- The keys ranged over by `for k := range m` (Go leaves their order unspecified). -/
def mapKeys (m : GoMap) : List Str :=
  m.map Prod.fst

/-! ## Library functions used by the program -/

/-- Go `unicode.IsSpace`: the code points with the Unicode White_Space property. -/
def isSpace (c : Char) : Bool :=
  let n := c.toNat
  (0x09 ≤ n && n ≤ 0x0D) || n == 0x20 || n == 0x85 || n == 0xA0 || n == 0x1680 ||
  (0x2000 ≤ n && n ≤ 0x200A) || n == 0x2028 || n == 0x2029 || n == 0x202F ||
  n == 0x205F || n == 0x3000

/-- Leading white space removed. -/
def trimLeft (s : Str) : Str :=
  s.dropWhile isSpace

/-- Trailing white space removed. -/
def trimRight (s : Str) : Str :=
  (s.reverse.dropWhile isSpace).reverse

/-- Go `strings.TrimSpace`: leading and trailing white space removed. -/
def TrimSpace (s : Str) : Str :=
  trimRight (trimLeft s)

/-- Go `strings.Split(s, sep)` for a one-character separator: the pieces between
occurrences of `sep`; always at least one piece. -/
def Split : Str → Char → List Str
  | [], _ => [[]]
  | c :: cs, sep =>
    if c = sep then [] :: Split cs sep
    else
      match Split cs sep with
      | [] => [[c]]
      | p :: ps => (c :: p) :: ps

/-- Go string comparison `a <= b`: lexicographic on code points. -/
def strLe : Str → Str → Bool
  | [], _ => true
  | _ :: _, [] => false
  | a :: as, b :: bs =>
    if a.toNat < b.toNat then true
    else if b.toNat < a.toNat then false
    else strLe as bs

/-- Insertion of one string into an ascending list. -/
def insertSorted (x : Str) : List Str → List Str
  | [] => [x]
  | y :: ys => if strLe x y then x :: y :: ys else y :: insertSorted x ys

/-- Go `sort.Strings`: the strings in ascending order. -/
def sortStrings : List Str → List Str
  | [] => []
  | x :: xs => insertSorted x (sortStrings xs)

/-! ## Manifest store -/

/-- Errors returned by the coordinators. -/
inductive Err where
  | mkdirAll
  | openInput
  | statInput
  | createChunk (chunkFileName : Str)
  | writeChunk (chunkFileName : Str)
  | readHashMap
  | newClient
  | selectNodes
  | noNodes
  | newUploader
  | newDownloader
  | rootHash (file : Str)
  | upload (file : Str)
  | missingHash (chunkFile : Str)
  | download (chunkFile : Str)
  deriving DecidableEq, Repr

deriving instance DecidableEq for Except

/-- One manifest line as written by `fmt.Fprintf(file, "%s|%s\n", chunkFile, rootHash)`. -/
def manifestLine (chunkFile rootHash : Str) : Str :=
  chunkFile ++ '|' :: (rootHash ++ ['\n'])

/-- Go `saveHashMap`, returning the content written to `hashMapFile`: one line
per fragment path, in sorted path order, with the hash read from `rootHashes`. -/
def saveHashMap (chunkFiles : List Str) (rootHashes : GoMap) : Str :=
  (sortStrings chunkFiles).foldl
    (fun file chunkFile => file ++ manifestLine chunkFile (mapGet rootHashes chunkFile)) []

/-- Body of the line loop of `loadHashMap`. -/
def loadLine (hashMap : GoMap) (line : Str) : GoMap :=
  let line := TrimSpace line
  if line = [] then hashMap
  else
    match Split line '|' with
    | [k, v] => mapSet hashMap k v
    | _ => hashMap

/-- Go `loadHashMap`; `data` is the outcome of `os.ReadFile(hashMapFile)`. -/
def loadHashMap (data : Option Str) : Except Err GoMap :=
  match data with
  | none => .error .readHashMap
  | some data => .ok ((Split data '\n').foldl loadLine [])

/-! ## Formatting and paths -/

/-- Go `fmt.Sprintf("%03d", i)` for `i ≥ 0`: decimal digits, zero-padded to width three. -/
def fmtD03 (i : Nat) : Str :=
  let d := Nat.toDigits 10 i
  List.replicate (3 - d.length) '0' ++ d

/-- Go `fmt.Sprintf("%x", n)` for `n ≥ 0`: lower-case hexadecimal digits. -/
def fmtHex (n : Nat) : Str :=
  Nat.toDigits 16 n

/-- Go `fmt.Sprintf("chunk_%03d.dat", i)`. -/
def chunkBaseName (i : Nat) : Str :=
  "chunk_".toList ++ fmtD03 i ++ ".dat".toList

/-- Output buffer of `filepath.Clean` together with its `dotdot` mark. -/
structure CleanState where
  out : Str
  dotdot : Nat
  deriving DecidableEq, Repr

/-- The backtracking loop of `filepath.Clean` on a `..` element:
`for out.w > dotdot && out[out.w] != '/' { out.w-- }`, started at `w`. -/
def backtrackLen (out : Str) (dotdot : Nat) : Nat → Nat
  | 0 => 0
  | w + 1 => if dotdot < w + 1 ∧ out.getD (w + 1) '/' ≠ '/' then backtrackLen out dotdot w else w + 1

/-- One path element processed by the loop of `filepath.Clean`.  The loop reads
the path one element (maximal run without `/`) at a time: an empty element or
`.` is dropped, `..` removes the last kept element when there is one, any other
element is appended after a separator. -/
def cleanStep (rooted : Bool) (st : CleanState) (elem : Str) : CleanState :=
  if elem = [] ∨ elem = ['.'] then st
  else if elem = ['.', '.'] then
    if st.dotdot < st.out.length then
      { st with out := st.out.take (backtrackLen st.out st.dotdot (st.out.length - 1)) }
    else if rooted then st
    else
      let out := (if 0 < st.out.length then st.out ++ ['/'] else st.out) ++ ['.', '.']
      { out := out, dotdot := out.length }
  else
    let out :=
      if (rooted ∧ st.out.length ≠ 1) ∨ (¬ rooted ∧ st.out.length ≠ 0) then st.out ++ ['/']
      else st.out
    { st with out := out ++ elem }

/-- Go `filepath.Clean` (Unix): the shortest equivalent path. -/
def Clean (path : Str) : Str :=
  if path = [] then ['.']
  else
    let rooted : Bool := path.head? = some '/'
    let st0 : CleanState := if rooted then { out := ['/'], dotdot := 1 } else { out := [], dotdot := 0 }
    let st := (Split path '/').foldl (cleanStep rooted) st0
    if st.out = [] then ['.'] else st.out

/-- Go `filepath.Join(dir, name)`: empty elements are ignored, the rest joined
with `/` and cleaned. -/
def Join (dir name : Str) : Str :=
  if dir ≠ [] then Clean (dir ++ '/' :: name)
  else if name ≠ [] then Clean name
  else []

/-- Go `filepath.Base` (Unix): the last element of the path. -/
def Base (path : Str) : Str :=
  if path = [] then ['.']
  else
    let path := (path.reverse.dropWhile (· = '/')).reverse
    let last := (path.reverse.takeWhile (· ≠ '/')).reverse
    if last = [] then ['/'] else last

/-- Name of fragment `i`: `filepath.Join(outputDir, fmt.Sprintf("chunk_%03d.dat", i))`. -/
def chunkFileName (outputDir : Str) (i : Nat) : Str :=
  Join outputDir (chunkBaseName i)

/-! ## Fragmenter -/

/-- Policy constant `numChunks`. -/
def numChunks : Nat := 10

/-- Two's-complement wrap-around of `int64` arithmetic. -/
def wrapInt64 (x : Int) : Int :=
  (x + 2 ^ 63) % 2 ^ 64 - 2 ^ 63

/-- The value of `bytesToRead` in iteration `i` of `splitFile`; `none` is the
`break` taken when `remaining <= 0`. -/
def bytesToRead (totalSize fragmentSize : Int) (i : Nat) : Option Int :=
  if i = numChunks - 1 then
    let remaining := wrapInt64 (totalSize - wrapInt64 ((i : Int) * fragmentSize))
    if remaining ≤ 0 then none
    else if remaining < fragmentSize then some remaining
    else some fragmentSize
  else some fragmentSize

/-- Outcomes of the local operations of `splitFile`: whether `os.MkdirAll`
creates the directory, whether the input file opens and can be statted,
whether a buffer of the given size can be allocated, whether `os.Create`
creates a fragment file and whether `Write` stores the given bytes in it. -/
structure SplitEnv where
  mkdirAll : Str → Bool
  openInput : Bool
  statInput : Bool
  alloc : Int → Bool
  create : Str → Bool
  write : Str → List Byte → Bool

/-- Largest size `make([]byte, n)` accepts on a 64-bit platform (`maxAlloc`);
above it `make` panics. -/
def maxAlloc : Nat := 2 ^ 48

/-- The loop of `splitFile` from iteration `i` on, with `steps` iterations left
and `rest` the unread part of the input file.  Returns the fragment files
created, in order, each with the bytes written to it, or the error of the
first `os.Create` or `Write` that fails. -/
def splitLoop (env : SplitEnv) (outputDir : Str) (totalSize fragmentSize : Int) :
    Nat → Nat → List Byte → Except Err (List (Str × List Byte))
  | 0, _, _ => .ok []
  | steps + 1, i, rest =>
    match bytesToRead totalSize fragmentSize i with
    | none => .ok []
    | some n =>
      let data := rest.take n.toNat
      if data.length = 0 then .ok []
      else if ¬ env.create (chunkFileName outputDir i) then
        .error (.createChunk (chunkFileName outputDir i))
      else if ¬ env.write (chunkFileName outputDir i) data then
        .error (.writeChunk (chunkFileName outputDir i))
      else
        match splitLoop env outputDir totalSize fragmentSize steps (i + 1) (rest.drop n.toNat) with
        | .error e => .error e
        | .ok chunks => .ok ((chunkFileName outputDir i, data) :: chunks)

/-- What `splitFile` returns on success: the returned paths and the files
written, in order of writing. -/
structure SplitResult where
  chunkFiles : List Str
  written : List (Str × List Byte)
  deriving DecidableEq, Repr

/-- How a call of `splitFile` ends: with the run aborted in `make` (a panic,
or a fatal error when the memory cannot be had), with an error and no paths,
or with the fragment paths. -/
inductive SplitOutcome where
  | panic
  | error (e : Err)
  | ok (r : SplitResult)
  deriving DecidableEq, Repr

/-- Go `splitFile` on an input file holding `source`.  `os.MkdirAll` fails on
the empty path whatever the environment; `make([]byte, fragmentSize)` ends the
run for a negative size, for a size above `maxAlloc` and when the memory
cannot be had. -/
def splitFile (env : SplitEnv) (source : List Byte) (outputDir : Str) (fragmentSize : Int) :
    SplitOutcome :=
  if outputDir = [] ∨ ¬ env.mkdirAll outputDir then .error .mkdirAll
  else if ¬ env.openInput then .error .openInput
  else if ¬ env.statInput then .error .statInput
  else if fragmentSize < 0 ∨ (maxAlloc : Int) < fragmentSize ∨ ¬ env.alloc fragmentSize then .panic
  else
    match splitLoop env outputDir (source.length : Int) fragmentSize numChunks 0 source with
    | .error e => .error e
    | .ok written => .ok { chunkFiles := written.map Prod.fst, written := written }

/-- Content of the file `name` after the writes `written`, `none` if it was not
written; the last write to a name wins. -/
def readFile : List (Str × List Byte) → Str → Option (List Byte)
  | [], _ => none
  | (n, d) :: rest, name =>
    match readFile rest name with
    | some d' => some d'
    | none => if n = name then some d else none

/-! ## Upload coordinator -/

/-- Length in bytes of the UTF-8 encoding of a code point. -/
def utf8Size (c : Char) : Nat :=
  if c.toNat < 0x80 then 1 else if c.toNat < 0x800 then 2 else if c.toNat < 0x10000 then 3 else 4

/-- Go `len(s)`: the length of the string in bytes. -/
def byteLen (s : Str) : Nat :=
  (s.map utf8Size).sum

/-- Go `s[:n]`: the first `n` bytes.  A code point cut by the slice leaves bytes
that are not text; they are not represented. -/
def sliceBytes : Str → Nat → Str
  | [], _ => []
  | c :: cs, n => if utf8Size c ≤ n then c :: sliceBytes cs (n - utf8Size c) else []

/-- Go `calculateFileRootHash`; `stat filePath` is the size reported for the file,
`none` when it cannot be opened or statted. -/
def calculateFileRootHash (stat : Str → Option Nat) (filePath : Str) : Except Err Str :=
  match stat filePath with
  | none => .error (.rootHash filePath)
  | some size =>
    let hash := fmtHex size ++ Base filePath
    let hash :=
      if byteLen hash < 64 then hash ++ List.replicate (64 - byteLen hash) '0'
      else sliceBytes hash 64
    .ok ("0x".toList ++ hash)

/-- Outcomes of the backend and file operations used by `uploadChunks`:
`stat` as in `calculateFileRootHash`, and `uploadFile idx file` the transaction
hash returned by `UploadFile` in worker `idx`, `none` when it returns an error.
(`blockchain.MustNewWeb3` is taken to return.) -/
structure UploadEnv where
  newClient : Bool
  selectNodes : Option Nat
  newUploader : Bool
  stat : Str → Option Nat
  uploadFile : Nat → Str → Option Str

/-- Upload worker `idx`: the root hash to record for `file`, or the error sent on `errChan`. -/
def uploadWorker (env : UploadEnv) (idx : Nat) (file : Str) : Except Err Str :=
  match calculateFileRootHash env.stat file with
  | .error e => .error e
  | .ok rootHash =>
    match env.uploadFile idx file with
    | none => .error (.upload file)
    | some _ => .ok rootHash

/-- All workers joined: the shared map and the errors sent on `errChan`.  The
workers are taken in list order; each writes its own key or sends one error. -/
def runWorkers (env : UploadEnv) (chunkFiles : List Str) : GoMap × List Err :=
  chunkFiles.enum.foldl
    (fun st w =>
      match uploadWorker env w.1 w.2 with
      | .error e => (st.1, st.2 ++ [e])
      | .ok rootHash => (mapSet st.1 w.2 rootHash, st.2))
    ([], [])

/-- Go `uploadChunks`. -/
def uploadChunks (env : UploadEnv) (chunkFiles : List Str) : Except Err GoMap :=
  if ¬ env.newClient then .error .newClient
  else
    match env.selectNodes with
    | none => .error .selectNodes
    | some nodes =>
      if nodes = 0 then .error .noNodes
      else if ¬ env.newUploader then .error .newUploader
      else
        match runWorkers env chunkFiles with
        | (_, e :: _) => .error e
        | (rootHashes, []) => .ok rootHashes

/-! ## Retrieval coordinator -/

/-- Outcomes of the backend operations used by `downloadAndMergeChunks`;
`download rootHash tempFile` is the content of `tempFile` after a successful
`Download`, `none` when `Download` returns an error. -/
structure DownloadEnv where
  newClient : Bool
  selectNodes : Bool
  newDownloader : Bool
  download : Str → Str → Option (List Byte)

/-- What a run of `downloadAndMergeChunks` leaves behind: the error returned,
the bytes of the output file (`none` when it was never created) and the
`Download` calls made, as `(rootHash, tempFile)` in order. -/
structure MergeResult where
  err : Option Err
  outFile : Option (List Byte)
  calls : List (Str × Str)
  deriving DecidableEq, Repr

/-- The fragment loop of `downloadAndMergeChunks` over the remaining sorted
paths, from output content `out` and earlier calls `calls`. -/
def mergeLoop (download : Str → Str → Option (List Byte)) (hashMap : GoMap) :
    List Str → List Byte → List (Str × Str) → MergeResult
  | [], out, calls => { err := none, outFile := some out, calls := calls }
  | chunkFile :: rest, out, calls =>
    let rootHash := mapGet hashMap chunkFile
    if rootHash = [] then { err := some (.missingHash chunkFile), outFile := some out, calls := calls }
    else
      let tempFile := chunkFile ++ ".downloaded".toList
      match download rootHash tempFile with
      | none => { err := some (.download chunkFile), outFile := some out, calls := calls ++ [(rootHash, tempFile)] }
      | some chunkData => mergeLoop download hashMap rest (out ++ chunkData) (calls ++ [(rootHash, tempFile)])

/-- Go `downloadAndMergeChunks`; `data` is the outcome of reading `hashMapFile`. -/
def downloadAndMergeChunks (env : DownloadEnv) (data : Option Str) : MergeResult :=
  match loadHashMap data with
  | .error e => { err := some e, outFile := none, calls := [] }
  | .ok hashMap =>
    if ¬ env.newClient then { err := some .newClient, outFile := none, calls := [] }
    else if ¬ env.selectNodes then { err := some .selectNodes, outFile := none, calls := [] }
    else if ¬ env.newDownloader then { err := some .newDownloader, outFile := none, calls := [] }
    else mergeLoop env.download hashMap (sortStrings (mapKeys hashMap)) [] []

/-! ## Entry point -/

/-- The top-level phases of `main`. -/
inductive Phase where
  | split
  | upload
  | save
  | retrieve
  deriving DecidableEq, Repr

/-- What `main` does with a phase: call it, or print its error. -/
inductive Event where
  | run (p : Phase)
  | report (p : Phase)
  deriving DecidableEq, Repr

/-- Whether each phase, if called, returns an error. -/
structure PhaseErrors where
  split : Bool
  upload : Bool
  save : Bool
  retrieve : Bool
  deriving DecidableEq, Repr

/-- Go `main`, as the sequence of phase calls and error reports it makes. -/
def main (e : PhaseErrors) : List Event :=
  if e.split then [.run .split, .report .split]
  else if e.upload then [.run .split, .run .upload, .report .upload]
  else
    [.run .split, .run .upload, .run .save] ++
    (if e.save then [.report .save] else []) ++
    [.run .retrieve] ++
    (if e.retrieve then [.report .retrieve] else [])

/-! ## Auxiliary definitions used in the statements and proofs -/

/-- The text of a manifest with the given entries, one line each. -/
def renderLines (entries : List (Str × Str)) : Str :=
  (entries.map (fun e => manifestLine e.1 e.2)).flatten

/-- No `|` and no newline in either field of an entry. -/
def EntryClean (e : Str × Str) : Prop :=
  '|' ∉ e.1 ∧ '\n' ∉ e.1 ∧ '|' ∉ e.2 ∧ '\n' ∉ e.2

/-- The order relation of `sort.Strings`. -/
def StrLE (a b : Str) : Prop := strLe a b = true

/-- The fields of a line that `loadHashMap` accepts: the line, trimmed, splits
on `|` into exactly two fields. -/
def lineFields (line : Str) : Option (Str × Str) :=
  match Split (TrimSpace line) '|' with
  | [k, v] => some (k, v)
  | _ => none

/-- The part of a joined path that comes from the directory: what
`filepath.Join(dir, name)` puts in front of an ordinary element `name`. -/
def joinPrefix (dir : Str) : Str :=
  if dir = [] then []
  else
    let rooted : Bool := dir.head? = some '/'
    let st0 : CleanState := if rooted then { out := ['/'], dotdot := 1 } else { out := [], dotdot := 0 }
    let st := (Split dir '/').foldl (cleanStep rooted) st0
    if (rooted ∧ st.out.length ≠ 1) ∨ (¬ rooted ∧ st.out.length ≠ 0) then st.out ++ ['/'] else st.out

/-- Ceiling of `s / f`. -/
def ceilDiv (s f : Nat) : Nat :=
  (s + f - 1) / f

/-- The loop of `splitFile` with every read asking for a whole fragment. -/
def splitLoopFull (outputDir : Str) (f : Nat) : Nat → Nat → List Byte → List (Str × List Byte)
  | 0, _, _ => []
  | steps + 1, i, rest =>
    if rest.take f = [] then []
    else (chunkFileName outputDir i, rest.take f) :: splitLoopFull outputDir f steps (i + 1) (rest.drop f)

/-- The fragments of a source: `min(ceil(S/F), numChunks)` blocks of `F` bytes, named by index. -/
def fragmentsOf (source : List Byte) (outputDir : Str) (F : Nat) : SplitResult :=
  { chunkFiles := (List.range (min (ceilDiv source.length F) numChunks)).map
      (chunkFileName outputDir)
    written := (List.range (min (ceilDiv source.length F) numChunks)).map
      (fun j => (chunkFileName outputDir j, (source.drop (j * F)).take F)) }

/-- Every local operation that `splitFile` performs for the directory
`outputDir` and the fragment size `F` succeeds. -/
def SplitSucceeds (env : SplitEnv) (outputDir : Str) (F : Nat) : Prop :=
  env.mkdirAll outputDir = true ∧ env.openInput = true ∧ env.statInput = true ∧
  env.alloc (F : Int) = true ∧
  ∀ i, i < numChunks → env.create (chunkFileName outputDir i) = true ∧
    ∀ data, env.write (chunkFileName outputDir i) data = true

/-- The creations and writes of the loop of `splitFile` applied to a list of
fragments: the list itself, or the error of the first operation that fails. -/
def checkWrites (env : SplitEnv) : List (Str × List Byte) → Except Err (List (Str × List Byte))
  | [] => .ok []
  | (name, data) :: rest =>
    if ¬ env.create name then .error (.createChunk name)
    else if ¬ env.write name data then .error (.writeChunk name)
    else
      match checkWrites env rest with
      | .error e => .error e
      | .ok chunks => .ok ((name, data) :: chunks)

/-- An environment in which every local operation of `splitFile` succeeds. -/
def reliableSplitEnv : SplitEnv :=
  { mkdirAll := fun _ => true
    openInput := true
    statInput := true
    alloc := fun _ => true
    create := fun _ => true
    write := fun _ _ => true }

/-- The root hash a successful worker records for `file`. -/
def recordedHash (env : UploadEnv) (file : Str) : Str :=
  match calculateFileRootHash env.stat file with
  | .ok h => h
  | .error _ => []

/-- The `Download` call made for the fragment `chunkFile` with hash `rootHash`. -/
def callOf (e : Str × Str) : Str × Str :=
  (e.2, e.1 ++ ".downloaded".toList)

/-- The key under which `loadHashMap` stores the line of fragment `i`. -/
def chunkKey (outputDir : Str) (i : Nat) : Str :=
  trimLeft (joinPrefix outputDir) ++ chunkBaseName i

/-- A backend that serves three fragments under the hashes `0xa`, `0xb`, `0xc`. -/
def exampleDownloadEnv : DownloadEnv :=
  { newClient := true
    selectNodes := true
    newDownloader := true
    download := fun rootHash _ =>
      if rootHash = "0xa".toList then some [1, 2, 3]
      else if rootHash = "0xb".toList then some [4, 5, 6]
      else if rootHash = "0xc".toList then some [7]
      else none }

/-- A backend that delivers into the file beside the fragment
`" d/chunk_000.dat"` and into no other file. -/
def besideFragmentEnv : DownloadEnv :=
  { newClient := true
    selectNodes := true
    newDownloader := true
    download := fun _ tempFile =>
      if tempFile = " d/chunk_000.dat.downloaded".toList then some [7] else none }

/-- The hashes recorded for the three fragments of the example. -/
def exampleHashes : GoMap :=
  [("d/chunk_000.dat".toList, "0xa".toList), ("d/chunk_001.dat".toList, "0xb".toList),
   ("d/chunk_002.dat".toList, "0xc".toList)]

/-- An upload environment in which every step succeeds. -/
def exampleUploadEnv : UploadEnv :=
  { newClient := true
    selectNodes := some 1
    newUploader := true
    stat := fun _ => some 3
    uploadFile := fun _ _ => some "tx".toList }

/-! ## Lemmas: maps -/

theorem mapLookup_mapSet (m : GoMap) (k v k' : Str) :
    mapLookup (mapSet m k v) k' = if k = k' then some v else mapLookup m k' := by
  induction m with
  | nil => simp [mapSet, mapLookup]
  | cons e m ih =>
    obtain ⟨a, b⟩ := e
    by_cases h : a = k
    · subst h
      by_cases h2 : a = k' <;> simp [mapSet, mapLookup, h2]
    · simp only [mapSet, if_neg h, mapLookup, ih]
      by_cases h2 : a = k'
      · subst h2
        simp [Ne.symm h]
      · simp [h2]

theorem mapKeys_mapSet_of_mem (m : GoMap) (k v : Str) (h : k ∈ mapKeys m) :
    mapKeys (mapSet m k v) = mapKeys m := by
  induction m with
  | nil => simp [mapKeys] at h
  | cons e m ih =>
    obtain ⟨a, b⟩ := e
    by_cases h1 : a = k
    · subst h1
      simp [mapSet, mapKeys]
    · have hk : k ∈ mapKeys m := by
        simp only [mapKeys, List.map_cons, List.mem_cons] at h
        rcases h with h | h
        · exact absurd h.symm h1
        · exact h
      have := ih hk
      simp only [mapKeys] at this ⊢
      simp [mapSet, h1, this]

theorem mapKeys_mapSet_of_not_mem (m : GoMap) (k v : Str) (h : k ∉ mapKeys m) :
    mapKeys (mapSet m k v) = mapKeys m ++ [k] := by
  induction m with
  | nil => simp [mapSet, mapKeys]
  | cons e m ih =>
    obtain ⟨a, b⟩ := e
    simp only [mapKeys, List.map_cons, List.mem_cons, not_or] at h
    have h1 : ¬ a = k := fun h' => h.1 h'.symm
    have := ih h.2
    simp only [mapKeys] at this ⊢
    simp [mapSet, h1, this]

theorem mem_mapKeys_iff (m : GoMap) (k : Str) :
    k ∈ mapKeys m ↔ (mapLookup m k).isSome := by
  induction m with
  | nil => simp [mapKeys, mapLookup]
  | cons e m ih =>
    obtain ⟨a, b⟩ := e
    by_cases h : a = k
    · subst h
      simp [mapKeys, mapLookup]
    · simp only [mapKeys] at ih
      simp [mapKeys, mapLookup, h, ih, Ne.symm h]

theorem mem_mapKeys_mapSet (m : GoMap) (k v k' : Str) :
    k' ∈ mapKeys (mapSet m k v) ↔ k' = k ∨ k' ∈ mapKeys m := by
  rw [mem_mapKeys_iff, mem_mapKeys_iff, mapLookup_mapSet]
  by_cases h : k = k'
  · simp [h]
  · simp [h, Ne.symm h]

theorem nodup_mapKeys_mapSet (m : GoMap) (k v : Str) (h : (mapKeys m).Nodup) :
    (mapKeys (mapSet m k v)).Nodup := by
  by_cases hk : k ∈ mapKeys m
  · rw [mapKeys_mapSet_of_mem m k v hk]
    exact h
  · rw [mapKeys_mapSet_of_not_mem m k v hk]
    exact List.Nodup.append h (List.nodup_singleton k) (by simpa using hk)

/-- In a map with distinct keys, the pairs stored are the graph of the lookup. -/
theorem mem_iff_mapLookup (m : GoMap) (h : (mapKeys m).Nodup) (k v : Str) :
    (k, v) ∈ m ↔ mapLookup m k = some v := by
  induction m with
  | nil => simp [mapLookup]
  | cons e m ih =>
    obtain ⟨a, b⟩ := e
    simp only [mapKeys, List.map_cons, List.nodup_cons] at h
    have ih' := ih h.2
    by_cases hak : a = k
    · subst hak
      have : ∀ v, (a, v) ∉ m := fun v hv => h.1 (List.mem_map.2 ⟨(a, v), hv, rfl⟩)
      simp [mapLookup, this, eq_comm]
    · simp [mapLookup, hak, ih', Ne.symm hak]

/-! ## Lemmas: splitting and trimming -/

theorem Split_ne_nil (s : Str) (sep : Char) : Split s sep ≠ [] := by
  induction s with
  | nil => simp [Split]
  | cons c cs ih =>
    unfold Split
    split
    · simp
    · split <;> simp

theorem Split_of_not_mem (s : Str) (sep : Char) (h : sep ∉ s) : Split s sep = [s] := by
  induction s with
  | nil => simp [Split]
  | cons c cs ih =>
    simp only [List.mem_cons, not_or] at h
    have hc : ¬ c = sep := fun h' => h.1 h'.symm
    simp [Split, hc, ih h.2]

/-- Pieces of `a ++ sep ++ b` are the pieces of `a` followed by the pieces of `b`. -/
theorem Split_append_sep (a b : Str) (sep : Char) :
    Split (a ++ sep :: b) sep = Split a sep ++ Split b sep := by
  induction a with
  | nil => simp [Split]
  | cons c cs ih =>
    by_cases hc : c = sep
    · simp [Split, hc, ih]
    · simp only [List.cons_append, Split, if_neg hc]
      change (match Split (cs ++ sep :: b) sep with
        | [] => [[c]]
        | p :: ps => (c :: p) :: ps) = _
      rw [ih]
      cases hs : Split cs sep with
      | nil => exact absurd hs (Split_ne_nil cs sep)
      | cons p ps => simp

theorem Split_field_sep (a b : Str) (sep : Char) (h : sep ∉ a) :
    Split (a ++ sep :: b) sep = a :: Split b sep := by
  rw [Split_append_sep, Split_of_not_mem a sep h]
  rfl

theorem isSpace_bar : isSpace '|' = false := by decide

theorem trimLeft_append_bar (p r : Str) :
    trimLeft (p ++ '|' :: r) = trimLeft p ++ '|' :: r := by
  induction p with
  | nil => simp [trimLeft, List.dropWhile, isSpace_bar]
  | cons c cs ih =>
    unfold trimLeft at ih ⊢
    by_cases hc : isSpace c = true
    · simp [List.dropWhile, hc, ih]
    · simp [List.dropWhile, hc]

theorem trimRight_bar_append (q h : Str) :
    trimRight (q ++ '|' :: h) = q ++ '|' :: trimRight h := by
  have key := trimLeft_append_bar h.reverse q.reverse
  unfold trimLeft at key
  unfold trimRight
  have e : (q ++ '|' :: h).reverse = h.reverse ++ '|' :: q.reverse := by simp
  rw [e, key]
  simp

theorem TrimSpace_field_bar (p h : Str) :
    TrimSpace (p ++ '|' :: h) = trimLeft p ++ '|' :: trimRight h := by
  unfold TrimSpace
  rw [trimLeft_append_bar, trimRight_bar_append]

theorem mem_of_mem_trimLeft {c : Char} {s : Str} (h : c ∈ trimLeft s) : c ∈ s :=
  (List.dropWhile_sublist _).subset h

theorem mem_of_mem_trimRight {c : Char} {s : Str} (h : c ∈ trimRight s) : c ∈ s := by
  unfold trimRight at h
  rw [List.mem_reverse] at h
  exact List.mem_reverse.1 ((List.dropWhile_sublist _).subset h)

theorem trimLeft_eq_self (s : Str) (h : ∀ c, s.head? = some c → isSpace c = false) :
    trimLeft s = s := by
  cases s with
  | nil => rfl
  | cons c cs => simp [trimLeft, List.dropWhile, h c rfl]

theorem trimRight_eq_self (s : Str) (h : ∀ c, s.getLast? = some c → isSpace c = false) :
    trimRight s = s := by
  unfold trimRight
  have : s.reverse.dropWhile isSpace = s.reverse := by
    apply trimLeft_eq_self
    intro c hc
    apply h c
    rw [← List.head?_reverse]
    exact hc
  rw [this, List.reverse_reverse]

theorem TrimSpace_nil : TrimSpace [] = [] := rfl

/-- A line `path|hash` whose fields hold no `|` is read as the entry
`(trimLeft path, trimRight hash)`. -/
theorem loadLine_entry (m : GoMap) (p h : Str) (hp : '|' ∉ p) (hh : '|' ∉ h) :
    loadLine m (p ++ '|' :: h) = mapSet m (trimLeft p) (trimRight h) := by
  unfold loadLine
  simp only [TrimSpace_field_bar]
  have h1 : '|' ∉ trimLeft p := fun hc => hp (mem_of_mem_trimLeft hc)
  have h2 : '|' ∉ trimRight h := fun hc => hh (mem_of_mem_trimRight hc)
  rw [Split_field_sep _ _ _ h1, Split_of_not_mem _ _ h2]
  simp

theorem loadLine_nil (m : GoMap) : loadLine m [] = m := by
  simp [loadLine, TrimSpace_nil]

/-! ## Lemmas: manifest text -/

theorem foldl_manifestLine (f : Str → Str) (l : List Str) (acc : Str) :
    l.foldl (fun file c => file ++ manifestLine c (f c)) acc
      = acc ++ renderLines (l.map (fun c => (c, f c))) := by
  induction l generalizing acc with
  | nil => simp [renderLines]
  | cons c cs ih =>
    simp only [List.foldl_cons, ih, renderLines, List.map_cons, List.flatten_cons, List.map_map]
    simp [List.append_assoc]

theorem saveHashMap_eq (chunkFiles : List Str) (rootHashes : GoMap) :
    saveHashMap chunkFiles rootHashes
      = renderLines ((sortStrings chunkFiles).map (fun c => (c, mapGet rootHashes c))) := by
  unfold saveHashMap
  rw [foldl_manifestLine (mapGet rootHashes)]
  simp

theorem Split_renderLines (entries : List (Str × Str)) (h : ∀ e ∈ entries, EntryClean e) :
    Split (renderLines entries) '\n' = entries.map (fun e => e.1 ++ '|' :: e.2) ++ [[]] := by
  induction entries with
  | nil => simp [renderLines, Split]
  | cons e es ih =>
    have he := h e (List.mem_cons_self _ _)
    have hes : ∀ e ∈ es, EntryClean e := fun x hx => h x (List.mem_cons_of_mem _ hx)
    have hline : '\n' ∉ e.1 ++ '|' :: e.2 := by
      simp only [List.mem_append, List.mem_cons, not_or]
      exact ⟨he.2.1, by decide, he.2.2.2⟩
    have e1 : renderLines (e :: es) = (e.1 ++ '|' :: e.2) ++ '\n' :: renderLines es := by
      simp [renderLines, manifestLine]
    rw [e1, Split_field_sep _ _ _ hline, ih hes]
    simp

theorem foldl_loadLine_entries (entries : List (Str × Str)) (m : GoMap)
    (h : ∀ e ∈ entries, EntryClean e) :
    (entries.map (fun e => e.1 ++ '|' :: e.2)).foldl loadLine m
      = entries.foldl (fun m e => mapSet m (trimLeft e.1) (trimRight e.2)) m := by
  induction entries generalizing m with
  | nil => rfl
  | cons e es ih =>
    have he := h e (List.mem_cons_self _ _)
    have hes : ∀ e ∈ es, EntryClean e := fun x hx => h x (List.mem_cons_of_mem _ hx)
    simp only [List.map_cons, List.foldl_cons]
    rw [loadLine_entry m e.1 e.2 he.1 he.2.2.1, ih _ hes]

/-- Loading a manifest text made of clean entries stores each entry in turn,
the path trimmed on the left and the hash trimmed on the right. -/
theorem loadHashMap_renderLines (entries : List (Str × Str)) (h : ∀ e ∈ entries, EntryClean e) :
    loadHashMap (some (renderLines entries))
      = .ok (entries.foldl (fun m e => mapSet m (trimLeft e.1) (trimRight e.2)) []) := by
  unfold loadHashMap
  simp only [Split_renderLines entries h, List.foldl_append, List.foldl_cons, List.foldl_nil,
    loadLine_nil]
  rw [foldl_loadLine_entries entries [] h]

theorem mapLookup_foldl_mapSet {α : Type} (f g : α → Str) (l : List α) (m : GoMap) (k : Str)
    (hf : ∀ a ∈ l, ∀ b ∈ l, f a = f b → g a = g b) :
    mapLookup (l.foldl (fun m c => mapSet m (f c) (g c)) m) k
      = if ∃ c ∈ l, f c = k then (l.find? (fun c => f c = k)).map g else mapLookup m k := by
  induction l generalizing m with
  | nil => simp
  | cons c cs ih =>
    have hcs : ∀ a ∈ cs, ∀ b ∈ cs, f a = f b → g a = g b :=
      fun a ha b hb => hf a (List.mem_cons_of_mem _ ha) b (List.mem_cons_of_mem _ hb)
    simp only [List.foldl_cons]
    rw [ih _ hcs, mapLookup_mapSet]
    by_cases h1 : ∃ x ∈ cs, f x = k
    · have h2 : ∃ x ∈ c :: cs, f x = k := by
        obtain ⟨x, hx, hxk⟩ := h1
        exact ⟨x, List.mem_cons_of_mem _ hx, hxk⟩
      rw [if_pos h1, if_pos h2]
      by_cases hc : f c = k
      · obtain ⟨x, hx, hxk⟩ := h1
        have hfx : (cs.find? (fun c => decide (f c = k))).map g = some (g c) := by
          cases hfind : cs.find? (fun c => decide (f c = k)) with
          | none =>
            rw [List.find?_eq_none] at hfind
            exact absurd hxk (by simpa using hfind x hx)
          | some y =>
            have hy := List.find?_some hfind
            have hym := List.mem_of_find?_eq_some hfind
            simp only [decide_eq_true_eq] at hy
            simp only [Option.map_some']
            rw [hf y (List.mem_cons_of_mem _ hym) c (List.mem_cons_self _ _) (by rw [hy, hc])]
        rw [hfx]
        simp [List.find?, hc]
      · simp [List.find?, hc]
    · rw [if_neg h1]
      by_cases hc : f c = k
      · have h2 : ∃ x ∈ c :: cs, f x = k := ⟨c, List.mem_cons_self _ _, hc⟩
        rw [if_pos h2]
        simp [List.find?, hc]
      · have h2 : ¬ ∃ x ∈ c :: cs, f x = k := by
          rintro ⟨x, hx, hxk⟩
          rcases List.mem_cons.1 hx with rfl | hx
          · exact hc hxk
          · exact h1 ⟨x, hx, hxk⟩
        rw [if_neg h2, if_neg hc]

/-! ## Lemmas: sorting -/

theorem Char_toNat_inj {a b : Char} (h : a.toNat = b.toNat) : a = b := by
  rw [← Char.ofNat_toNat a, ← Char.ofNat_toNat b, h]

theorem strLe_refl (a : Str) : strLe a a = true := by
  induction a with
  | nil => rfl
  | cons c cs ih => simp [strLe, ih]

theorem strLe_total (a b : Str) : strLe a b = true ∨ strLe b a = true := by
  induction a generalizing b with
  | nil => left; rfl
  | cons c cs ih =>
    cases b with
    | nil => right; rfl
    | cons d ds =>
      rcases Nat.lt_trichotomy c.toNat d.toNat with h | h | h
      · left; simp [strLe, h]
      · rcases ih ds with h' | h'
        · left; simp [strLe, h, h']
        · right; simp [strLe, h, h']
      · right; simp [strLe, h]

theorem strLe_trans {a b c : Str} (h1 : strLe a b = true) (h2 : strLe b c = true) :
    strLe a c = true := by
  induction a generalizing b c with
  | nil => rfl
  | cons x xs ih =>
    cases b with
    | nil => simp [strLe] at h1
    | cons y ys =>
      cases c with
      | nil => simp [strLe] at h2
      | cons z zs =>
        simp only [strLe] at h1 h2 ⊢
        rcases Nat.lt_trichotomy x.toNat y.toNat with hxy | hxy | hxy
        · rcases Nat.lt_trichotomy y.toNat z.toNat with hyz | hyz | hyz
          · simp [Nat.lt_trans hxy hyz]
          · simp [hyz ▸ hxy]
          · simp [hyz, Nat.lt_asymm hyz] at h2
        · rcases Nat.lt_trichotomy y.toNat z.toNat with hyz | hyz | hyz
          · simp [hxy, hyz]
          · simp only [hxy, hyz, Nat.lt_irrefl, if_false] at h1 h2 ⊢
            exact ih h1 h2
          · simp [hyz, Nat.lt_asymm hyz] at h2
        · simp [hxy, Nat.lt_asymm hxy] at h1

theorem strLe_antisymm {a b : Str} (h1 : strLe a b = true) (h2 : strLe b a = true) : a = b := by
  induction a generalizing b with
  | nil =>
    cases b with
    | nil => rfl
    | cons d ds => simp [strLe] at h2
  | cons c cs ih =>
    cases b with
    | nil => simp [strLe] at h1
    | cons d ds =>
      simp only [strLe] at h1 h2
      rcases Nat.lt_trichotomy c.toNat d.toNat with h | h | h
      · simp [h, Nat.lt_asymm h] at h2
      · simp only [h, Nat.lt_irrefl, if_false] at h1 h2
        rw [Char_toNat_inj h, ih h1 h2]
      · simp [h, Nat.lt_asymm h] at h1

/-- A common prefix does not change the order of two strings. -/
theorem strLe_append_left (p a b : Str) : strLe (p ++ a) (p ++ b) = strLe a b := by
  induction p with
  | nil => rfl
  | cons c cs ih => simp [strLe, ih]

theorem insertSorted_perm (x : Str) (l : List Str) : (insertSorted x l).Perm (x :: l) := by
  induction l with
  | nil => exact List.Perm.refl _
  | cons y ys ih =>
    unfold insertSorted
    split
    · exact List.Perm.refl _
    · exact ((List.Perm.cons y ih).trans (List.Perm.swap x y ys))

theorem sortStrings_perm (l : List Str) : (sortStrings l).Perm l := by
  induction l with
  | nil => exact List.Perm.refl _
  | cons x xs ih => exact (insertSorted_perm x _).trans (List.Perm.cons x ih)

theorem insertSorted_sorted (x : Str) (l : List Str) (h : l.Sorted StrLE) :
    (insertSorted x l).Sorted StrLE := by
  induction l with
  | nil => simp [insertSorted]
  | cons y ys ih =>
    unfold insertSorted
    have hy := List.sorted_cons.1 h
    split
    · rename_i hxy
      refine List.sorted_cons.2 ⟨?_, h⟩
      intro b hb
      rcases List.mem_cons.1 hb with rfl | hb
      · exact hxy
      · exact strLe_trans hxy (hy.1 b hb)
    · rename_i hxy
      have hyx : StrLE y x := by
        rcases strLe_total x y with h' | h'
        · exact absurd h' hxy
        · exact h'
      refine List.sorted_cons.2 ⟨?_, ih hy.2⟩
      intro b hb
      rcases List.mem_cons.1 ((insertSorted_perm x ys).subset hb) with rfl | hb
      · exact hyx
      · exact hy.1 b hb

theorem sortStrings_sorted (l : List Str) : (sortStrings l).Sorted StrLE := by
  induction l with
  | nil => exact List.sorted_nil
  | cons x xs ih => exact insertSorted_sorted x _ ih

/-- Sorting returns the one ascending arrangement of its input. -/
theorem sortStrings_eq_of_perm {l s : List Str} (hp : l.Perm s) (hs : s.Sorted StrLE) :
    sortStrings l = s :=
  @List.eq_of_perm_of_sorted Str StrLE ⟨fun _ _ => strLe_antisymm⟩ _ _
    ((sortStrings_perm l).trans hp) (sortStrings_sorted l) hs

theorem mem_sortStrings {l : List Str} {x : Str} : x ∈ sortStrings l ↔ x ∈ l :=
  (sortStrings_perm l).mem_iff

/-! ## Manifest round trip -/

theorem nodup_foldl_mapSet {α : Type} (f g : α → Str) (l : List α) (m : GoMap)
    (h : (mapKeys m).Nodup) :
    (mapKeys (l.foldl (fun m c => mapSet m (f c) (g c)) m)).Nodup := by
  induction l generalizing m with
  | nil => exact h
  | cons c cs ih => exact ih _ (nodup_mapKeys_mapSet m _ _ h)

/-- What `loadHashMap` makes of the text written by `saveHashMap` when no path
and no recorded hash holds `|` or a newline. -/
theorem load_save_eq (chunkFiles : List Str) (rootHashes : GoMap)
    (h : ∀ p ∈ chunkFiles, EntryClean (p, mapGet rootHashes p)) :
    loadHashMap (some (saveHashMap chunkFiles rootHashes))
      = .ok ((sortStrings chunkFiles).foldl
          (fun m c => mapSet m (trimLeft c) (trimRight (mapGet rootHashes c))) []) := by
  rw [saveHashMap_eq, loadHashMap_renderLines, List.foldl_map]
  intro e he
  obtain ⟨c, hc, rfl⟩ := List.mem_map.1 he
  exact h c (mem_sortStrings.1 hc)

/-- The lookup form of the round trip through `saveHashMap` and `loadHashMap`. -/
theorem load_save_lookup (chunkFiles : List Str) (rootHashes : GoMap)
    (hp : ∀ p ∈ chunkFiles, '|' ∉ p ∧ '\n' ∉ p ∧ ∀ c, p.head? = some c → isSpace c = false)
    (hh : ∀ p ∈ chunkFiles, '|' ∉ mapGet rootHashes p ∧ '\n' ∉ mapGet rootHashes p ∧
      ∀ c, (mapGet rootHashes p).getLast? = some c → isSpace c = false) :
    ∃ m, loadHashMap (some (saveHashMap chunkFiles rootHashes)) = .ok m ∧
      (mapKeys m).Nodup ∧
      ∀ k, mapLookup m k = if k ∈ chunkFiles then some (mapGet rootHashes k) else none := by
  refine ⟨_, load_save_eq chunkFiles rootHashes ?_, ?_, ?_⟩
  · intro p hpm
    exact ⟨(hp p hpm).1, (hp p hpm).2.1, (hh p hpm).1, (hh p hpm).2.1⟩
  · exact nodup_foldl_mapSet _ _ _ _ List.nodup_nil
  · intro k
    have hfix : ∀ c ∈ sortStrings chunkFiles, trimLeft c = c := fun c hc =>
      trimLeft_eq_self c (hp c (mem_sortStrings.1 hc)).2.2
    rw [mapLookup_foldl_mapSet trimLeft (fun c => trimRight (mapGet rootHashes c))]
    · by_cases hk : k ∈ chunkFiles
      · have hex : ∃ c ∈ sortStrings chunkFiles, trimLeft c = k :=
          ⟨k, mem_sortStrings.2 hk, hfix k (mem_sortStrings.2 hk)⟩
        rw [if_pos hex, if_pos hk]
        cases hfind : (sortStrings chunkFiles).find? (fun c => decide (trimLeft c = k)) with
        | none =>
          rw [List.find?_eq_none] at hfind
          obtain ⟨c, hc, hck⟩ := hex
          exact absurd hck (by simpa using hfind c hc)
        | some y =>
          have hy := List.find?_some hfind
          have hym := List.mem_of_find?_eq_some hfind
          simp only [decide_eq_true_eq] at hy
          rw [hfix y hym] at hy
          subst hy
          simp only [Option.map_some']
          rw [trimRight_eq_self _ (hh y hk).2.2]
      · have hex : ¬ ∃ c ∈ sortStrings chunkFiles, trimLeft c = k := by
          rintro ⟨c, hc, hck⟩
          rw [hfix c hc] at hck
          subst hck
          exact hk (mem_sortStrings.1 hc)
        rw [if_neg hex, if_neg hk]
        rfl
    · intro a ha b hb hab
      rw [hfix a ha, hfix b hb] at hab
      rw [hab]

/-- Claim C10.  For every list of fragment paths and every hash map, if no
listed path and no hash recorded for one holds `|` or a newline, no path starts
with white space and no hash ends with white space, then `loadHashMap` reads
the text written by `saveHashMap` without error, and the map it returns sends
each listed path to its hash (the empty hash for a path missing from the hash
map) and has no other key.  Distinctness of the paths is not needed. -/
theorem manifest_roundtrip_wellformed (chunkFiles : List Str) (rootHashes : GoMap)
    (hp : ∀ p ∈ chunkFiles, '|' ∉ p ∧ '\n' ∉ p ∧ ∀ c, p.head? = some c → isSpace c = false)
    (hh : ∀ p ∈ chunkFiles, '|' ∉ mapGet rootHashes p ∧ '\n' ∉ mapGet rootHashes p ∧
      ∀ c, (mapGet rootHashes p).getLast? = some c → isSpace c = false) :
    ∃ m, loadHashMap (some (saveHashMap chunkFiles rootHashes)) = .ok m ∧
      (mapKeys m).Nodup ∧
      ∀ k, mapLookup m k = if k ∈ chunkFiles then some (mapGet rootHashes k) else none :=
  load_save_lookup chunkFiles rootHashes hp hh

/-- Witness for `manifest_roundtrip_wellformed`: two paths, one of them missing from the hash map. -/
theorem manifest_roundtrip_wellformed_witness :
    ∃ m, loadHashMap (some (saveHashMap ["b".toList, "a".toList] [("a".toList, "0x1".toList)]))
        = .ok m ∧ (mapKeys m).Nodup ∧
      ∀ k, mapLookup m k = if k ∈ ["b".toList, "a".toList]
        then some (mapGet [("a".toList, "0x1".toList)] k) else none :=
  manifest_roundtrip_wellformed ["b".toList, "a".toList] [("a".toList, "0x1".toList)]
    (by decide) (by decide)

/-- Claim C3, as stated, fails: the single pair with path `a|b` and hash `h`
has a non-empty hash, yet the text `saveHashMap` writes for it is read back by
`loadHashMap` as the empty map, so the pair is lost. -/
theorem manifest_roundtrip_counterexample :
    (List.map Prod.fst [("a|b".toList, "h".toList)]).Nodup ∧
    (∀ e ∈ [("a|b".toList, "h".toList)], e.2 ≠ []) ∧
    saveHashMap ["a|b".toList] [("a|b".toList, "h".toList)] = "a|b|h\n".toList ∧
    loadHashMap (some (saveHashMap ["a|b".toList] [("a|b".toList, "h".toList)])) = .ok [] := by
  decide

/-- Claim C3, amended.  For every list of `(path, hash)` pairs with distinct
paths and non-empty hashes in which no path and no hash holds `|` or a newline,
no path starts with white space and no hash ends with white space, `loadHashMap`
reads the text `saveHashMap` writes for these pairs as a map whose entries are
exactly the given pairs. -/
theorem manifest_roundtrip_pairs (pairs : List (Str × Str))
    (hd : (pairs.map Prod.fst).Nodup)
    (_hne : ∀ e ∈ pairs, e.2 ≠ [])
    (hp : ∀ e ∈ pairs, '|' ∉ e.1 ∧ '\n' ∉ e.1 ∧ ∀ c, e.1.head? = some c → isSpace c = false)
    (hh : ∀ e ∈ pairs, '|' ∉ e.2 ∧ '\n' ∉ e.2 ∧ ∀ c, e.2.getLast? = some c → isSpace c = false) :
    ∃ m, loadHashMap (some (saveHashMap (pairs.map Prod.fst) pairs)) = .ok m ∧
      ∀ k v, (k, v) ∈ m ↔ (k, v) ∈ pairs := by
  have hget : ∀ e ∈ pairs, mapGet pairs e.1 = e.2 := by
    intro e he
    have := (mem_iff_mapLookup pairs hd e.1 e.2).1 he
    simp [mapGet, this]
  obtain ⟨m, hm, hnd, hlook⟩ := load_save_lookup (pairs.map Prod.fst) pairs
    (by
      intro p hpm
      obtain ⟨e, he, rfl⟩ := List.mem_map.1 hpm
      exact hp e he)
    (by
      intro p hpm
      obtain ⟨e, he, rfl⟩ := List.mem_map.1 hpm
      rw [hget e he]
      exact hh e he)
  refine ⟨m, hm, ?_⟩
  intro k v
  rw [mem_iff_mapLookup m hnd, hlook, mem_iff_mapLookup pairs hd]
  by_cases hk : k ∈ pairs.map Prod.fst
  · rw [if_pos hk]
    obtain ⟨e, he, rfl⟩ := List.mem_map.1 hk
    have h1 := (mem_iff_mapLookup pairs hd e.1 e.2).1 he
    rw [hget e he, h1]
  · rw [if_neg hk]
    have : mapLookup pairs k = none := by
      cases hl : mapLookup pairs k with
      | none => rfl
      | some w =>
        have := (mem_mapKeys_iff pairs k).2 (by simp [hl])
        exact absurd this hk
    simp [this]

/-- Witness for `manifest_roundtrip_pairs`. -/
theorem manifest_roundtrip_pairs_witness :
    ∃ m, loadHashMap (some (saveHashMap
        (List.map Prod.fst [("b".toList, "0x2".toList), ("a".toList, "0x1".toList)])
        [("b".toList, "0x2".toList), ("a".toList, "0x1".toList)])) = .ok m ∧
      ∀ k v, (k, v) ∈ m ↔ (k, v) ∈ [("b".toList, "0x2".toList), ("a".toList, "0x1".toList)] :=
  manifest_roundtrip_pairs [("b".toList, "0x2".toList), ("a".toList, "0x1".toList)]
    (by decide) (by decide) (by decide) (by decide)

/-! ## Lenient load -/

theorem lineFields_eq_some (line k v : Str) :
    lineFields line = some (k, v) ↔ Split (TrimSpace line) '|' = [k, v] := by
  unfold lineFields
  split
  · rename_i a b hs
    rw [hs]
    simp
  · rename_i hs
    constructor
    · intro h
      cases h
    · intro h
      exact absurd h (hs k v)

theorem loadLine_eq (m : GoMap) (line : Str) :
    loadLine m line = match lineFields line with
      | some (k, v) => mapSet m k v
      | none => m := by
  unfold loadLine lineFields
  by_cases hb : TrimSpace line = []
  · simp [hb, Split]
  · simp only [hb, if_false]
    split <;> simp_all

theorem nodup_foldl_loadLine (lines : List Str) (m : GoMap) (h : (mapKeys m).Nodup) :
    (mapKeys (lines.foldl loadLine m)).Nodup := by
  induction lines generalizing m with
  | nil => exact h
  | cons l ls ih =>
    apply ih
    rw [loadLine_eq]
    split
    · exact nodup_mapKeys_mapSet m _ _ h
    · exact h

/-- The value `loadHashMap` holds for a key is that of the last accepted line with that key. -/
theorem mapLookup_foldl_loadLine (lines : List Str) (m : GoMap) (k v : Str) :
    mapLookup (lines.foldl loadLine m) k = some v ↔
      (∃ pre line post, lines = pre ++ line :: post ∧ lineFields line = some (k, v) ∧
        ∀ l ∈ post, ∀ w, lineFields l ≠ some (k, w)) ∨
      (mapLookup m k = some v ∧ ∀ l ∈ lines, ∀ w, lineFields l ≠ some (k, w)) := by
  induction lines using List.reverseRecOn with
  | nil => simp
  | append_singleton ls l ih =>
    rw [List.foldl_append, List.foldl_cons, List.foldl_nil, loadLine_eq]
    cases hl : lineFields l with
    | none =>
      simp only []
      rw [ih]
      constructor
      · rintro (⟨pre, line, post, rfl, hline, hpost⟩ | ⟨hm, hall⟩)
        · left
          refine ⟨pre, line, post ++ [l], by simp, hline, ?_⟩
          intro x hx w
          rcases List.mem_append.1 hx with hx | hx
          · exact hpost x hx w
          · rw [List.mem_singleton.1 hx, hl]
            simp
        · right
          refine ⟨hm, ?_⟩
          intro x hx w
          rcases List.mem_append.1 hx with hx | hx
          · exact hall x hx w
          · rw [List.mem_singleton.1 hx, hl]
            simp
      · rintro (⟨pre, line, post, heq, hline, hpost⟩ | ⟨hm, hall⟩)
        · left
          rcases List.eq_nil_or_concat post with rfl | ⟨post', x, rfl⟩
          · have := (List.append_inj' heq rfl).2
            simp only [List.cons.injEq, and_true] at this
            subst this
            rw [hl] at hline
            cases hline
          · have heq' : ls ++ [l] = (pre ++ line :: post') ++ [x] := by
              rw [heq]; simp
            have h1 := (List.append_inj' heq' rfl).1
            refine ⟨pre, line, post', h1, hline, ?_⟩
            intro y hy w
            exact hpost y (by simp [hy]) w
        · right
          exact ⟨hm, fun x hx w => hall x (by simp [hx]) w⟩
    | some e =>
      obtain ⟨a, b⟩ := e
      simp only []
      rw [mapLookup_mapSet]
      by_cases hak : a = k
      · subst hak
        rw [if_pos rfl]
        constructor
        · intro hv
          simp only [Option.some.injEq] at hv
          subst hv
          left
          exact ⟨ls, l, [], rfl, hl, by simp⟩
        · rintro (⟨pre, line, post, heq, hline, hpost⟩ | ⟨hm, hall⟩)
          · rcases List.eq_nil_or_concat post with rfl | ⟨post', x, rfl⟩
            · have := (List.append_inj' heq rfl).2
              simp only [List.cons.injEq, and_true] at this
              subst this
              rw [hl] at hline
              simp only [Option.some.injEq, Prod.mk.injEq, true_and] at hline
              rw [hline]
            · have heq' : ls ++ [l] = (pre ++ line :: post') ++ [x] := by
                rw [heq]; simp
              have h2 := (List.append_inj' heq' rfl).2
              simp only [List.cons.injEq, and_true] at h2
              subst h2
              exact absurd hl (hpost l (by simp) b)
          · exact absurd hl (hall l (by simp) b)
      · rw [if_neg hak, ih]
        have hne : ∀ w, lineFields l ≠ some (k, w) := by
          intro w hw
          rw [hl] at hw
          simp only [Option.some.injEq, Prod.mk.injEq] at hw
          exact hak hw.1
        constructor
        · rintro (⟨pre, line, post, rfl, hline, hpost⟩ | ⟨hm, hall⟩)
          · left
            refine ⟨pre, line, post ++ [l], by simp, hline, ?_⟩
            intro x hx w
            rcases List.mem_append.1 hx with hx | hx
            · exact hpost x hx w
            · rw [List.mem_singleton.1 hx]
              exact hne w
          · right
            refine ⟨hm, ?_⟩
            intro x hx w
            rcases List.mem_append.1 hx with hx | hx
            · exact hall x hx w
            · rw [List.mem_singleton.1 hx]
              exact hne w
        · rintro (⟨pre, line, post, heq, hline, hpost⟩ | ⟨hm, hall⟩)
          · left
            rcases List.eq_nil_or_concat post with rfl | ⟨post', x, rfl⟩
            · have := (List.append_inj' heq rfl).2
              simp only [List.cons.injEq, and_true] at this
              subst this
              exact absurd hline (hne v)
            · have heq' : ls ++ [l] = (pre ++ line :: post') ++ [x] := by
                rw [heq]; simp
              have h1 := (List.append_inj' heq' rfl).1
              refine ⟨pre, line, post', h1, hline, ?_⟩
              intro y hy w
              exact hpost y (by simp [hy]) w
          · right
            exact ⟨hm, fun x hx w => hall x (by simp [hx]) w⟩

/-- Claim C8.  For every manifest content that can be read, `loadHashMap`
returns a map and no error; the map has distinct keys and holds exactly the
pairs `(k, v)` for which some line, trimmed of surrounding white space, is
non-blank and splits on `|` into exactly the two fields `k` and `v`, with no
later line that splits into two fields with the same `k`.  A blank line and a
line that does not split into exactly two fields leave the map as it is.  In
the manifest `chunk_000.dat|0xaa`, `chunk_001.dat`, `chunk_002.dat|0xcc` the
second line is skipped and the two other entries are returned. -/
theorem loadHashMap_lenient :
    (∀ data : Str, ∃ m, loadHashMap (some data) = .ok m ∧ (mapKeys m).Nodup ∧
      ∀ k v, (k, v) ∈ m ↔
        ∃ pre line post, Split data '\n' = pre ++ line :: post ∧
          TrimSpace line ≠ [] ∧ Split (TrimSpace line) '|' = [k, v] ∧
          ∀ l ∈ post, ∀ w, Split (TrimSpace l) '|' ≠ [k, w]) ∧
    (∀ (m : GoMap) (line : Str),
      (TrimSpace line = [] ∨ (Split (TrimSpace line) '|').length ≠ 2) → loadLine m line = m) ∧
    loadHashMap (some "chunk_000.dat|0xaa\nchunk_001.dat\nchunk_002.dat|0xcc\n".toList)
      = .ok [("chunk_000.dat".toList, "0xaa".toList), ("chunk_002.dat".toList, "0xcc".toList)] := by
  refine ⟨?_, ?_, by decide⟩
  · intro data
    have hnd : (mapKeys ((Split data '\n').foldl loadLine [])).Nodup :=
      nodup_foldl_loadLine _ [] List.nodup_nil
    refine ⟨_, rfl, hnd, ?_⟩
    intro k v
    rw [mem_iff_mapLookup _ hnd, mapLookup_foldl_loadLine]
    constructor
    · rintro (⟨pre, line, post, h1, h2, h3⟩ | ⟨h0, _⟩)
      · rw [lineFields_eq_some] at h2
        refine ⟨pre, line, post, h1, ?_, h2, ?_⟩
        · intro hb
          rw [hb] at h2
          simp [Split] at h2
        · intro l hl w hw
          exact h3 l hl w ((lineFields_eq_some l k w).2 hw)
      · simp [mapLookup] at h0
    · rintro ⟨pre, line, post, h1, _, h2, h3⟩
      left
      refine ⟨pre, line, post, h1, (lineFields_eq_some line k v).2 h2, ?_⟩
      intro l hl w hw
      exact h3 l hl w ((lineFields_eq_some l k w).1 hw)
  · intro m line h
    rw [loadLine_eq]
    cases hl : lineFields line with
    | none => rfl
    | some e =>
      obtain ⟨a, b⟩ := e
      rw [lineFields_eq_some] at hl
      rcases h with h | h
      · rw [h] at hl
        simp [Split] at hl
      · rw [hl] at h
        simp at h

/-- Witness for `loadHashMap_lenient`: the line `chunk_001.dat` has no
delimiter and leaves the map as it is. -/
theorem loadHashMap_lenient_witness :
    loadLine [("chunk_000.dat".toList, "0xaa".toList)] "chunk_001.dat".toList
      = [("chunk_000.dat".toList, "0xaa".toList)] :=
  loadHashMap_lenient.2.1 [("chunk_000.dat".toList, "0xaa".toList)] "chunk_001.dat".toList
    (Or.inr (by decide))

/-! ## Fragment names -/

/-- Joining a directory with an ordinary element (non-empty, without `/`,
neither `.` nor `..`) puts the cleaned directory in front of the element. -/
theorem Join_eq_prefix (dir name : Str) (h0 : name ≠ []) (h1 : '/' ∉ name)
    (h2 : name ≠ ['.']) (h3 : name ≠ ['.', '.']) :
    Join dir name = joinPrefix dir ++ name := by
  have hstep : ∀ (rooted : Bool) (st : CleanState),
      (cleanStep rooted st name).out =
        (if (rooted ∧ st.out.length ≠ 1) ∨ (¬ rooted ∧ st.out.length ≠ 0) then st.out ++ ['/']
          else st.out) ++ name := by
    intro rooted st
    simp [cleanStep, h0, h2, h3]
  by_cases hd : dir = []
  · subst hd
    have hr : ¬ (name.head? = some '/') := by
      intro hh
      cases name with
      | nil => exact h0 rfl
      | cons c cs =>
        simp only [List.head?_cons, Option.some.injEq] at hh
        subst hh
        simp at h1
    simp only [Join, ne_eq, not_true_eq_false, if_false, h0, not_false_eq_true, if_true, Clean,
      joinPrefix, List.nil_append]
    rw [Split_of_not_mem name '/' h1]
    simp [hr, hstep, h0]
  · have hne : dir ++ '/' :: name ≠ [] := by simp [hd]
    have hhead : (dir ++ '/' :: name).head? = dir.head? := by
      cases dir with
      | nil => exact absurd rfl hd
      | cons c cs => rfl
    simp only [Join, ne_eq, hd, not_false_eq_true, if_true, Clean, hne, if_false, joinPrefix, hhead]
    rw [Split_append_sep, Split_of_not_mem name '/' h1, List.foldl_append]
    simp only [List.foldl_cons, List.foldl_nil, hstep]
    have hnn : ∀ x : Str, x ++ name ≠ [] := by simp [h0]
    rw [if_neg (hnn _)]

theorem chunkBaseName_ordinary (i : Nat) (hi : i < numChunks) :
    chunkBaseName i ≠ [] ∧ '/' ∉ chunkBaseName i ∧ chunkBaseName i ≠ ['.'] ∧
      chunkBaseName i ≠ ['.', '.'] := by
  unfold numChunks at hi
  interval_cases i <;> decide

/-- Every fragment name built by `splitFile` is the cleaned directory followed by `chunk_NNN.dat`. -/
theorem chunkFileName_eq (dir : Str) (i : Nat) (hi : i < numChunks) :
    chunkFileName dir i = joinPrefix dir ++ chunkBaseName i := by
  obtain ⟨h0, h1, h2, h3⟩ := chunkBaseName_ordinary i hi
  exact Join_eq_prefix dir _ h0 h1 h2 h3

theorem chunkBaseName_inj (i j : Nat) (hi : i < numChunks) (hj : j < numChunks)
    (h : chunkBaseName i = chunkBaseName j) : i = j := by
  unfold numChunks at hi hj
  interval_cases i <;> interval_cases j <;> first | rfl | (exact absurd h (by decide))

theorem chunkFileName_inj (dir : Str) (i j : Nat) (hi : i < numChunks) (hj : j < numChunks)
    (h : chunkFileName dir i = chunkFileName dir j) : i = j := by
  rw [chunkFileName_eq dir i hi, chunkFileName_eq dir j hj] at h
  exact chunkBaseName_inj i j hi hj (List.append_cancel_left h)

/-! ## Fragmenter -/

theorem wrapInt64_eq (x : Int) (h0 : 0 ≤ x) (h1 : x < 9223372036854775808) :
    wrapInt64 x = x := by
  unfold wrapInt64
  have e63 : (2 : Int) ^ 63 = 9223372036854775808 := by norm_num
  have e64 : (2 : Int) ^ 64 = 18446744073709551616 := by norm_num
  rw [e63, e64, Int.emod_eq_of_lt (by omega) (by omega)]
  omega

/-- In every iteration the read delivers what a read of a whole fragment would
deliver: the shortened request of the last iteration never cuts data off. -/
theorem bytesToRead_spec (source : List Byte) (f i : Nat) (rest : List Byte)
    (hs : source.length < 2 ^ 63)
    (hrest : rest = source.drop (i * f)) :
    match bytesToRead (source.length : Int) (f : Int) i with
    | none => rest = []
    | some n => rest.take n.toNat = rest.take f ∧ rest.drop n.toNat = rest.drop f := by
  rcases eq_or_ne rest [] with hnil | hnil
  · rw [hnil]
    cases bytesToRead (source.length : Int) (f : Int) i <;> simp
  · by_cases hi : i = numChunks - 1
    · have hlen : 0 < rest.length := List.length_pos.2 hnil
      have hl : rest.length = source.length - i * f := by rw [hrest, List.length_drop]
      have hlt : i * f < source.length := by omega
      have e63 : (2 : Nat) ^ 63 = 9223372036854775808 := by norm_num
      rw [e63] at hs
      have hw1 : wrapInt64 ((i : Int) * (f : Int)) = ((i * f : Nat) : Int) := by
        rw [← Nat.cast_mul]
        apply wrapInt64_eq
        · exact Int.ofNat_zero_le _
        · have h' : i * f < 9223372036854775808 := by omega
          exact_mod_cast h'
      have hw2 : wrapInt64 ((source.length : Int) - ((i * f : Nat) : Int))
          = ((source.length - i * f : Nat) : Int) := by
        rw [← Nat.cast_sub (le_of_lt hlt)]
        apply wrapInt64_eq
        · exact Int.ofNat_zero_le _
        · have h' : source.length - i * f < 9223372036854775808 := by omega
          exact_mod_cast h'
      have hval : bytesToRead (source.length : Int) (f : Int) i
          = some (if source.length - i * f < f then ((source.length - i * f : Nat) : Int)
              else (f : Int)) := by
        unfold bytesToRead
        rw [if_pos hi]
        simp only [hw1, hw2]
        have hpos : ¬ (((source.length - i * f : Nat) : Int) ≤ 0) := by
          have h0 : 0 < source.length - i * f := by omega
          have : (0 : Int) < ((source.length - i * f : Nat) : Int) := by exact_mod_cast h0
          omega
        rw [if_neg hpos]
        by_cases hsmall : source.length - i * f < f
        · have : ((source.length - i * f : Nat) : Int) < (f : Int) := by exact_mod_cast hsmall
          rw [if_pos this, if_pos hsmall]
        · have : ¬ ((source.length - i * f : Nat) : Int) < (f : Int) := by
            intro h'
            exact hsmall (by exact_mod_cast h')
          rw [if_neg this, if_neg hsmall]
      rw [hval]
      simp only []
      by_cases hsmall : source.length - i * f < f
      · rw [if_pos hsmall, Int.toNat_ofNat, ← hl]
        have h1 : rest.length ≤ f := by omega
        simp [List.take_of_length_le h1, List.drop_of_length_le h1]
      · rw [if_neg hsmall]
        simp
    · have hval : bytesToRead (source.length : Int) (f : Int) i = some (f : Int) := by
        unfold bytesToRead
        rw [if_neg hi]
      rw [hval]
      simp

/-- Under the loop invariant the loop of `splitFile` makes the creations and
writes of the loop of whole-fragment reads. -/
theorem splitLoop_eq_check (env : SplitEnv) (source : List Byte) (outputDir : Str) (f : Nat)
    (hs : source.length < 2 ^ 63) (steps i : Nat) (rest : List Byte)
    (hrest : rest = source.drop (i * f)) :
    splitLoop env outputDir (source.length : Int) (f : Int) steps i rest
      = checkWrites env (splitLoopFull outputDir f steps i rest) := by
  induction steps generalizing i rest with
  | zero => rfl
  | succ n ih =>
    have hb := bytesToRead_spec source f i rest hs hrest
    unfold splitLoop splitLoopFull
    cases hbr : bytesToRead (source.length : Int) (f : Int) i with
    | none =>
      rw [hbr] at hb
      simp only [] at hb
      subst hb
      simp [checkWrites]
    | some m =>
      rw [hbr] at hb
      simp only [] at hb
      simp only [hb.1, hb.2]
      have hnext : rest.drop f = source.drop ((i + 1) * f) := by
        rw [hrest, List.drop_drop]
        congr 1
        ring
      rw [ih (i + 1) (rest.drop f) hnext]
      by_cases hnil : rest.take f = []
      · simp [hnil, checkWrites]
      · have hlen : ¬ (rest.take f).length = 0 := fun h => hnil (List.length_eq_zero.1 h)
        rw [if_neg hlen, if_neg hnil]
        rfl

theorem checkWrites_ok (env : SplitEnv) (l : List (Str × List Byte))
    (h : ∀ e ∈ l, env.create e.1 = true ∧ env.write e.1 e.2 = true) :
    checkWrites env l = .ok l := by
  induction l with
  | nil => rfl
  | cons e es ih =>
    obtain ⟨name, data⟩ := e
    obtain ⟨h1, h2⟩ := h (name, data) (List.mem_cons_self _ _)
    simp only at h1 h2
    simp [checkWrites, h1, h2, ih (fun x hx => h x (List.mem_cons_of_mem _ hx))]

theorem checkWrites_inv (env : SplitEnv) (l l' : List (Str × List Byte))
    (h : checkWrites env l = .ok l') : l' = l := by
  induction l generalizing l' with
  | nil =>
    simp only [checkWrites, Except.ok.injEq] at h
    exact h.symm
  | cons e es ih =>
    obtain ⟨name, data⟩ := e
    unfold checkWrites at h
    split at h
    · cases h
    · split at h
      · cases h
      · cases hr : checkWrites env es with
        | error x =>
          rw [hr] at h
          cases h
        | ok chunks =>
          rw [hr] at h
          simp only [Except.ok.injEq] at h
          rw [← h, ih chunks hr]

theorem take_eq_nil_iff_of_pos (rest : List Byte) (f : Nat) (hf : 0 < f) :
    rest.take f = [] ↔ rest = [] := by
  cases rest with
  | nil => simp
  | cons a as =>
    cases f with
    | zero => omega
    | succ n => simp

theorem ceilDiv_zero (f : Nat) (hf : 0 < f) : ceilDiv 0 f = 0 := by
  unfold ceilDiv
  apply Nat.div_eq_of_lt
  omega

theorem ceilDiv_pos_eq (s f : Nat) (hs : 0 < s) (hf : 0 < f) :
    ceilDiv s f = ceilDiv (s - f) f + 1 := by
  unfold ceilDiv
  by_cases h : f ≤ s
  · have e1 : s + f - 1 = (s - 1) + f := by omega
    have e2 : s - f + f - 1 = s - 1 := by omega
    rw [e1, e2, Nat.add_div_right _ hf]
  · have e1 : s + f - 1 = (s - 1) + f := by omega
    have e2 : s - f + f - 1 = f - 1 := by omega
    rw [e1, e2, Nat.add_div_right _ hf, Nat.div_eq_of_lt (by omega : s - 1 < f),
      Nat.div_eq_of_lt (by omega : f - 1 < f)]

theorem lt_ceilDiv_iff (i s f : Nat) (hf : 0 < f) : i < ceilDiv s f ↔ i * f < s := by
  unfold ceilDiv
  rw [Nat.lt_iff_add_one_le, Nat.le_div_iff_mul_le hf, Nat.add_mul]
  omega

/-- The fragments written by the whole-fragment loop: fragment `j` of the run
is named by index `i + j` and holds the `j`-th block of `f` bytes of `rest`. -/
theorem splitLoopFull_eq (outputDir : Str) (f : Nat) (hf : 0 < f) (steps i : Nat)
    (rest : List Byte) :
    splitLoopFull outputDir f steps i rest
      = (List.range (min (ceilDiv rest.length f) steps)).map
          (fun j => (chunkFileName outputDir (i + j), (rest.drop (j * f)).take f)) := by
  induction steps generalizing i rest with
  | zero => simp [splitLoopFull]
  | succ n ih =>
    unfold splitLoopFull
    by_cases hnil : rest = []
    · subst hnil
      simp [ceilDiv_zero f hf]
    · have h1 : ¬ rest.take f = [] := fun h => hnil ((take_eq_nil_iff_of_pos rest f hf).1 h)
      rw [if_neg h1, ih]
      have hlen : 0 < rest.length := List.length_pos.2 hnil
      rw [ceilDiv_pos_eq rest.length f hlen hf, Nat.add_min_add_right, List.range_succ_eq_map,
        List.map_cons, List.map_map, List.length_drop]
      simp only [Nat.zero_mul, List.drop_zero, Nat.add_zero, List.cons.injEq, true_and]
      apply List.map_congr_left
      intro j _
      simp only [Function.comp, List.drop_drop]
      have e1 : i + 1 + j = i + (j + 1) := by omega
      have e2 : f + j * f = (j + 1) * f := by ring
      rw [e1, e2]

theorem flatten_blocks (rest : List Byte) (f k : Nat) :
    ((List.range k).map (fun j => (rest.drop (j * f)).take f)).flatten = rest.take (k * f) := by
  induction k with
  | zero => simp
  | succ n ih =>
    rw [List.range_succ, List.map_append, List.flatten_append, ih]
    simp only [List.map_cons, List.map_nil, List.flatten_cons, List.flatten_nil, List.append_nil]
    rw [Nat.succ_mul, List.take_add]

theorem mem_keys_of_readFile (l : List (Str × List Byte)) (name : Str) (x : List Byte)
    (h : readFile l name = some x) : name ∈ l.map Prod.fst := by
  induction l generalizing x with
  | nil => simp [readFile] at h
  | cons e es ih =>
    obtain ⟨n, d⟩ := e
    simp only [readFile] at h
    cases hr : readFile es name with
    | none =>
      rw [hr] at h
      simp only [] at h
      by_cases hn : n = name
      · simp [hn]
      · simp [hn] at h
    | some y =>
      simp only [List.map_cons, List.mem_cons]
      right
      exact ih y hr

theorem readFile_of_nodup (l : List (Str × List Byte)) (h : (l.map Prod.fst).Nodup)
    (name : Str) (d : List Byte) (hm : (name, d) ∈ l) : readFile l name = some d := by
  induction l with
  | nil => simp at hm
  | cons e es ih =>
    obtain ⟨n, d'⟩ := e
    simp only [List.map_cons, List.nodup_cons] at h
    rcases List.mem_cons.1 hm with heq | hmem
    · simp only [Prod.mk.injEq] at heq
      obtain ⟨rfl, rfl⟩ := heq
      have hnone : readFile es name = none := by
        cases hr : readFile es name with
        | none => rfl
        | some x => exact absurd (mem_keys_of_readFile es name x hr) h.1
      simp [readFile, hnone]
    · simp [readFile, ih h.2 hmem]

theorem map_readFile_of_nodup (l : List (Str × List Byte)) (h : (l.map Prod.fst).Nodup) :
    (l.map Prod.fst).map (fun n => (readFile l n).getD []) = l.map Prod.snd := by
  rw [List.map_map]
  apply List.map_congr_left
  intro e he
  simp [Function.comp, readFile_of_nodup l h e.1 e.2 he]

theorem splitLoop_main (env : SplitEnv) (source : List Byte) (outputDir : Str) (F : Nat)
    (hF : 0 < F) (hs : source.length < 2 ^ 63) :
    splitLoop env outputDir (source.length : Int) (F : Int) numChunks 0 source
      = checkWrites env (fragmentsOf source outputDir F).written := by
  rw [splitLoop_eq_check env source outputDir F hs numChunks 0 source (by simp),
    splitLoopFull_eq outputDir F hF]
  simp [fragmentsOf]

theorem fragmentsOf_fst (source : List Byte) (outputDir : Str) (F : Nat) :
    (fragmentsOf source outputDir F).written.map Prod.fst
      = (fragmentsOf source outputDir F).chunkFiles := by
  simp [fragmentsOf, Function.comp]

/-- The result of `splitFile` for a positive fragment size when every local operation succeeds. -/
theorem splitFile_eq (env : SplitEnv) (source : List Byte) (outputDir : Str) (F : Nat)
    (hF : 0 < F) (hmax : F ≤ maxAlloc) (hs : source.length < 2 ^ 63)
    (hdir : outputDir ≠ []) (henv : SplitSucceeds env outputDir F) :
    splitFile env source outputDir (F : Int) = .ok (fragmentsOf source outputDir F) := by
  obtain ⟨hmk, hopen, hstat, halloc, hcw⟩ := henv
  have hneg : ¬ ((F : Int) < 0) := by omega
  have hbig : ¬ ((maxAlloc : Int) < (F : Int)) := by
    intro h
    have : maxAlloc < F := by exact_mod_cast h
    omega
  have hw : checkWrites env (fragmentsOf source outputDir F).written
      = .ok (fragmentsOf source outputDir F).written := by
    apply checkWrites_ok
    intro e he
    simp only [fragmentsOf] at he
    obtain ⟨j, hj, rfl⟩ := List.mem_map.1 he
    have hj' : j < numChunks :=
      lt_of_lt_of_le (List.mem_range.1 hj) (Nat.min_le_right _ _)
    exact ⟨(hcw j hj').1, (hcw j hj').2 _⟩
  unfold splitFile
  simp only [hdir, hmk, hopen, hstat, halloc, hneg, hbig, not_true_eq_false, or_self, if_false]
  rw [splitLoop_main env source outputDir F hF hs, hw]
  simp only [fragmentsOf_fst]

/-- Whatever the environment, a successful `splitFile` returns the fragments of the source. -/
theorem splitFile_inv (env : SplitEnv) (source : List Byte) (outputDir : Str) (F : Nat)
    (hF : 0 < F) (hs : source.length < 2 ^ 63) (r : SplitResult)
    (h : splitFile env source outputDir (F : Int) = .ok r) :
    r = fragmentsOf source outputDir F := by
  unfold splitFile at h
  split at h
  · cases h
  · split at h
    · cases h
    · split at h
      · cases h
      · split at h
        · cases h
        · rw [splitLoop_main env source outputDir F hF hs] at h
          cases hc : checkWrites env (fragmentsOf source outputDir F).written with
          | error e =>
            rw [hc] at h
            cases h
          | ok l =>
            rw [hc] at h
            simp only [SplitOutcome.ok.injEq] at h
            rw [← h, checkWrites_inv env _ l hc, fragmentsOf_fst]

theorem nodup_chunkFileNames (outputDir : Str) (k : Nat) (hk : k ≤ numChunks) :
    ((List.range k).map (chunkFileName outputDir)).Nodup := by
  apply List.Nodup.map_on
  · intro i hi j hj h
    exact chunkFileName_inj outputDir i j
      (lt_of_lt_of_le (List.mem_range.1 hi) hk) (lt_of_lt_of_le (List.mem_range.1 hj) hk) h
  · exact List.nodup_range k

theorem take_blocks_eq (source : List Byte) (F : Nat) (hF : 0 < F) :
    source.take (min (ceilDiv source.length F) numChunks * F) = source.take (numChunks * F) := by
  rcases Nat.lt_or_ge (ceilDiv source.length F) numChunks with h | h
  · rw [Nat.min_eq_left (le_of_lt h)]
    have h1 : ¬ ceilDiv source.length F * F < source.length := by
      intro hlt
      exact Nat.lt_irrefl _ ((lt_ceilDiv_iff _ _ _ hF).2 hlt)
    have h2 : ceilDiv source.length F * F ≤ numChunks * F := Nat.mul_le_mul_right _ (le_of_lt h)
    rw [List.take_of_length_le (by omega), List.take_of_length_le (by omega)]
  · rw [Nat.min_eq_right h]

/-- Reading the fragments of a source back by name, in index order, gives
its first `numChunks * F` bytes. -/
theorem fragmentsOf_concat (source : List Byte) (outputDir : Str) (F : Nat) (hF : 0 < F) :
    ((fragmentsOf source outputDir F).chunkFiles.map
      (fun n => (readFile (fragmentsOf source outputDir F).written n).getD [])).flatten
      = source.take (numChunks * F) := by
  have hnd := nodup_chunkFileNames outputDir (min (ceilDiv source.length F) numChunks)
    (Nat.min_le_right _ _)
  have h1 := map_readFile_of_nodup (fragmentsOf source outputDir F).written
    (by rw [fragmentsOf_fst]; exact hnd)
  rw [fragmentsOf_fst] at h1
  rw [h1]
  have h2 := flatten_blocks source F (min (ceilDiv source.length F) numChunks)
  rw [take_blocks_eq source F hF] at h2
  rw [← h2]
  simp only [fragmentsOf, List.map_map]
  rfl

/-- Claim C1, as stated, fails.  With every local operation succeeding, a
source of seven bytes and the fragment size `2^60`, `splitFile` ends in the
panic of `make` and emits no fragment; with the empty output directory and
fragment size 3 it returns the error of `os.MkdirAll` and emits no fragment. -/
theorem splitFile_complete_counterexample :
    (0 : Int) < 1152921504606846976 ∧
    splitFile reliableSplitEnv [1, 2, 3, 4, 5, 6, 7] "d".toList 1152921504606846976 = .panic ∧
    splitFile reliableSplitEnv [1, 2, 3, 4, 5, 6, 7] [] 3 = .error .mkdirAll := by
  decide

/-- Claim C1, amended.  For every source byte sequence (of a length that fits
the `int64` reported by `Stat`) and every fragment size `F` with
`0 < F ≤ maxAlloc`, when the output directory is not the empty path and every
local operation of `splitFile` succeeds, `splitFile` returns, and reading the
fragment files it returns back in index order and concatenating them gives the
first `min(S, numChunks * F)` bytes of the source: the whole source when
`S ≤ numChunks * F`, and exactly `numChunks * F` bytes when
`S > numChunks * F`. -/
theorem splitFile_complete (env : SplitEnv) (source : List Byte) (outputDir : Str) (F : Nat)
    (hF : 0 < F) (hmax : F ≤ maxAlloc) (hs : source.length < 2 ^ 63)
    (hdir : outputDir ≠ []) (henv : SplitSucceeds env outputDir F) :
    ∃ r, splitFile env source outputDir (F : Int) = .ok r ∧
      (r.chunkFiles.map (fun n => (readFile r.written n).getD [])).flatten
        = source.take (min source.length (numChunks * F)) ∧
      (source.length ≤ numChunks * F →
        (r.chunkFiles.map (fun n => (readFile r.written n).getD [])).flatten = source) ∧
      (numChunks * F < source.length →
        ((r.chunkFiles.map (fun n => (readFile r.written n).getD [])).flatten).length
          = numChunks * F) := by
  have hcat := fragmentsOf_concat source outputDir F hF
  refine ⟨_, splitFile_eq env source outputDir F hF hmax hs hdir henv, ?_, ?_, ?_⟩
  · rw [hcat]
    rcases Nat.le_total source.length (numChunks * F) with h | h
    · rw [Nat.min_eq_left h, List.take_of_length_le h, List.take_of_length_le (le_refl _)]
    · rw [Nat.min_eq_right h]
  · intro h
    rw [hcat, List.take_of_length_le h]
  · intro h
    rw [hcat, List.length_take, Nat.min_eq_left (le_of_lt h)]

/-- Witness for `splitFile_complete`: seven bytes in fragments of three. -/
theorem splitFile_complete_witness :
    ∃ r, splitFile reliableSplitEnv [1, 2, 3, 4, 5, 6, 7] "d".toList ((3 : Nat) : Int) = .ok r ∧
      (r.chunkFiles.map (fun n => (readFile r.written n).getD [])).flatten
        = List.take (min [(1 : Byte), 2, 3, 4, 5, 6, 7].length (numChunks * 3)) [1, 2, 3, 4, 5, 6, 7] ∧
      ([(1 : Byte), 2, 3, 4, 5, 6, 7].length ≤ numChunks * 3 →
        (r.chunkFiles.map (fun n => (readFile r.written n).getD [])).flatten = [1, 2, 3, 4, 5, 6, 7]) ∧
      (numChunks * 3 < [(1 : Byte), 2, 3, 4, 5, 6, 7].length →
        ((r.chunkFiles.map (fun n => (readFile r.written n).getD [])).flatten).length
          = numChunks * 3) :=
  splitFile_complete reliableSplitEnv [1, 2, 3, 4, 5, 6, 7] "d".toList 3 (by decide) (by decide)
    (by decide) (by decide) ⟨rfl, rfl, rfl, rfl, fun _ _ => ⟨rfl, fun _ => rfl⟩⟩

/-- Claim C4, as stated, fails.  With every local operation succeeding, a
source of five bytes and the fragment size `2^60`, the claim promises one
fragment of five bytes, and `splitFile` ends in the panic of `make`; with the
empty output directory and fragment size 2 it promises three fragments, and
`splitFile` returns the error of `os.MkdirAll`. -/
theorem splitFile_count_sizes_counterexample :
    min (ceilDiv 5 1152921504606846976) numChunks = 1 ∧
    splitFile reliableSplitEnv [1, 2, 3, 4, 5] "d".toList 1152921504606846976 = .panic ∧
    min (ceilDiv 5 2) numChunks = 3 ∧
    splitFile reliableSplitEnv [1, 2, 3, 4, 5] [] 2 = .error .mkdirAll := by
  decide

/-- Claim C4, amended.  For every source of length `S` (fitting the `int64`
reported by `Stat`) and every fragment size `F` with `0 < F ≤ maxAlloc`, when
the output directory is not the empty path and every local operation of
`splitFile` succeeds, `splitFile` returns `k = min(ceil(S/F), numChunks)`
fragments; they are named by the indices `0 .. k-1` in order, fragment `i`
holds `min(F, S - i*F)` bytes, every fragment holds at least one byte and every
fragment but the last holds `F` bytes.  A source of 1,000,000 bytes with
`F = 300,000` gives four fragments of 300000, 300000, 300000 and 100000 bytes. -/
theorem splitFile_count_sizes (env : SplitEnv) (source : List Byte) (outputDir : Str) (F : Nat)
    (hF : 0 < F) (hmax : F ≤ maxAlloc) (hs : source.length < 2 ^ 63)
    (hdir : outputDir ≠ []) (henv : SplitSucceeds env outputDir F) :
    (∃ r, splitFile env source outputDir (F : Int) = .ok r ∧
      r.chunkFiles.length = min (ceilDiv source.length F) numChunks ∧
      r.chunkFiles = (List.range (min (ceilDiv source.length F) numChunks)).map
        (chunkFileName outputDir) ∧
      r.written.map Prod.fst = r.chunkFiles ∧
      r.written.map (fun e => e.2.length)
        = (List.range (min (ceilDiv source.length F) numChunks)).map
            (fun i => min F (source.length - i * F)) ∧
      (∀ i, i < min (ceilDiv source.length F) numChunks → 0 < min F (source.length - i * F)) ∧
      (∀ i, i + 1 < min (ceilDiv source.length F) numChunks →
        min F (source.length - i * F) = F)) ∧
    (∀ big : List Byte, big.length = 1000000 → SplitSucceeds env outputDir 300000 →
      ∃ r, splitFile env big outputDir ((300000 : Nat) : Int) = .ok r ∧
        r.chunkFiles = [chunkFileName outputDir 0, chunkFileName outputDir 1,
          chunkFileName outputDir 2, chunkFileName outputDir 3] ∧
        r.written.map (fun e => e.2.length) = [300000, 300000, 300000, 100000]) := by
  have hsizes : ∀ (src : List Byte) (G k : Nat),
      ((List.range k).map (fun j => (chunkFileName outputDir j, (src.drop (j * G)).take G))).map
        (fun e => e.2.length) = (List.range k).map (fun i => min G (src.length - i * G)) := by
    intro src G k
    rw [List.map_map]
    apply List.map_congr_left
    intro j _
    simp [Function.comp, List.length_take, List.length_drop]
  constructor
  · refine ⟨_, splitFile_eq env source outputDir F hF hmax hs hdir henv, ?_, rfl, ?_,
      hsizes source F _, ?_, ?_⟩
    · simp [fragmentsOf]
    · exact fragmentsOf_fst source outputDir F
    · intro i hi
      have h1 : i * F < source.length :=
        (lt_ceilDiv_iff i _ F hF).1 (lt_of_lt_of_le hi (Nat.min_le_left _ _))
      omega
    · intro i hi
      have h1 : (i + 1) * F < source.length :=
        (lt_ceilDiv_iff (i + 1) _ F hF).1 (lt_of_lt_of_le hi (Nat.min_le_left _ _))
      rw [Nat.add_mul] at h1
      omega
  · intro big hbig hbenv
    have hk : min (ceilDiv big.length 300000) numChunks = 4 := by
      rw [hbig]
      decide
    have h := splitFile_eq env big outputDir 300000 (by decide) (by decide)
      (by rw [hbig]; decide) hdir hbenv
    refine ⟨_, h, ?_, ?_⟩
    · simp only [fragmentsOf, hk]
      rfl
    · simp only [fragmentsOf, hk]
      rw [hsizes big 300000 4, hbig]
      decide

/-- Witness for `splitFile_count_sizes`: seven bytes in fragments of three. -/
theorem splitFile_count_sizes_witness :
    splitFile reliableSplitEnv [1, 2, 3, 4, 5, 6, 7] "d".toList ((3 : Nat) : Int)
      = .ok { chunkFiles := ["d/chunk_000.dat".toList, "d/chunk_001.dat".toList,
                "d/chunk_002.dat".toList],
              written := [("d/chunk_000.dat".toList, [1, 2, 3]),
                ("d/chunk_001.dat".toList, [4, 5, 6]), ("d/chunk_002.dat".toList, [7])] } ∧
    ∃ r, splitFile reliableSplitEnv [1, 2, 3, 4, 5, 6, 7] "d".toList ((3 : Nat) : Int) = .ok r ∧
      r.chunkFiles.length = min (ceilDiv 7 3) numChunks :=
  ⟨by decide,
   by
    obtain ⟨⟨r, h1, h2, _⟩, _⟩ :=
      splitFile_count_sizes reliableSplitEnv [1, 2, 3, 4, 5, 6, 7] "d".toList 3 (by decide)
        (by decide) (by decide) (by decide) ⟨rfl, rfl, rfl, rfl, fun _ _ => ⟨rfl, fun _ => rfl⟩⟩
    exact ⟨r, h1, h2⟩⟩

/-! ## Entry point -/

/-- Claim C9, evaluated where it fails.  When `splitFile` and `uploadChunks`
succeed and `saveHashMap` returns an error, `main` prints the error and goes on
to call `downloadAndMergeChunks`; a failure of `splitFile` or of `uploadChunks`
does end the run. -/
theorem main_continues_after_save_error :
    main { split := false, upload := false, save := true, retrieve := false }
      = [.run .split, .run .upload, .run .save, .report .save, .run .retrieve] ∧
    (∀ e : PhaseErrors, e.split = true → main e = [.run .split, .report .split]) ∧
    (∀ e : PhaseErrors, e.split = false → e.upload = true →
      main e = [.run .split, .run .upload, .report .upload]) := by
  refine ⟨by decide, ?_, ?_⟩
  · intro e h
    simp [main, h]
  · intro e h1 h2
    simp [main, h1, h2]

/-! ## Upload coordinator -/

theorem calculateFileRootHash_ne_nil (stat : Str → Option Nat) (p h : Str)
    (hh : calculateFileRootHash stat p = .ok h) : h ≠ [] := by
  unfold calculateFileRootHash at hh
  cases hs : stat p with
  | none =>
    rw [hs] at hh
    cases hh
  | some size =>
    rw [hs] at hh
    simp only [Except.ok.injEq] at hh
    rw [← hh]
    simp

theorem uploadWorker_ok_iff (env : UploadEnv) (idx : Nat) (file h : Str) :
    uploadWorker env idx file = .ok h ↔
      calculateFileRootHash env.stat file = .ok h ∧ env.uploadFile idx file ≠ none := by
  unfold uploadWorker
  cases hc : calculateFileRootHash env.stat file with
  | error e => simp
  | ok r =>
    cases hu : env.uploadFile idx file with
    | none => simp
    | some tx => simp

theorem calculateFileRootHash_ok_of_stat (stat : Str → Option Nat) (p : Str)
    (h : stat p ≠ none) : ∃ r, calculateFileRootHash stat p = .ok r := by
  unfold calculateFileRootHash
  cases hs : stat p with
  | none => exact absurd hs h
  | some size => exact ⟨_, rfl⟩

theorem calculateFileRootHash_error_of_stat (stat : Str → Option Nat) (p : Str)
    (h : stat p = none) : calculateFileRootHash stat p = .error (.rootHash p) := by
  unfold calculateFileRootHash
  rw [h]

/-- The workers of `runWorkers`, started from a given map and error list: no
error is sent exactly when every worker succeeds. -/
theorem foldl_workers_errors (env : UploadEnv) (ws : List (Nat × Str)) (st : GoMap × List Err) :
    (ws.foldl
      (fun st w =>
        match uploadWorker env w.1 w.2 with
        | .error e => (st.1, st.2 ++ [e])
        | .ok rootHash => (mapSet st.1 w.2 rootHash, st.2)) st).2 = [] ↔
      st.2 = [] ∧ ∀ w ∈ ws, ∃ h, uploadWorker env w.1 w.2 = .ok h := by
  induction ws generalizing st with
  | nil => simp
  | cons w ws ih =>
    rw [List.foldl_cons, ih]
    cases hw : uploadWorker env w.1 w.2 with
    | error e =>
      constructor
      · rintro ⟨h1, _⟩
        simp at h1
      · rintro ⟨_, h2⟩
        obtain ⟨h, hh⟩ := h2 w (List.mem_cons_self _ _)
        rw [hw] at hh
        cases hh
    | ok r =>
      constructor
      · rintro ⟨h1, h2⟩
        refine ⟨h1, ?_⟩
        intro x hx
        rcases List.mem_cons.1 hx with rfl | hx
        · exact ⟨r, hw⟩
        · exact h2 x hx
      · rintro ⟨h1, h2⟩
        exact ⟨h1, fun x hx => h2 x (List.mem_cons_of_mem _ hx)⟩

theorem foldl_workers_map (env : UploadEnv) (ws : List (Nat × Str)) (st : GoMap × List Err)
    (hok : ∀ w ∈ ws, ∃ h, uploadWorker env w.1 w.2 = .ok h) :
    (ws.foldl
      (fun st w =>
        match uploadWorker env w.1 w.2 with
        | .error e => (st.1, st.2 ++ [e])
        | .ok rootHash => (mapSet st.1 w.2 rootHash, st.2)) st).1
      = ws.foldl (fun m w => mapSet m w.2 (recordedHash env w.2)) st.1 := by
  induction ws generalizing st with
  | nil => rfl
  | cons w ws ih =>
    rw [List.foldl_cons, List.foldl_cons, ih _ (fun x hx => hok x (List.mem_cons_of_mem _ hx))]
    obtain ⟨h, hh⟩ := hok w (List.mem_cons_self _ _)
    have hcalc := ((uploadWorker_ok_iff env w.1 w.2 h).1 hh).1
    simp [recordedHash, hh, hcalc]

theorem exists_enum_snd_iff (l : List Str) (p : Str) :
    (∃ w ∈ l.enum, w.2 = p) ↔ p ∈ l := by
  constructor
  · rintro ⟨w, hw, rfl⟩
    exact List.getElem?_mem (List.mem_enum_iff_getElem?.1 hw)
  · intro hp
    obtain ⟨i, hi⟩ := List.getElem?_of_mem hp
    exact ⟨(i, p), List.mem_enum_iff_getElem?.2 hi, rfl⟩

/-- Claim C6.  With the indexer client, a non-empty node set and the uploader
obtained, for every list of fragment paths and every outcome of hash derivation
(`stat`, per path) and of backend submission (`uploadFile`, per worker): if the
hash derivation or the submission of some listed fragment fails,
`uploadChunks` returns an error and no map; if none fails, it returns a map
with distinct keys whose keys are exactly the listed paths, and the value at
each path is the hash `calculateFileRootHash` gives for it, which is not empty. -/
theorem uploadChunks_all_or_nothing (env : UploadEnv) (chunkFiles : List Str)
    (hc : env.newClient = true) (hn : ∃ n, env.selectNodes = some n ∧ 0 < n)
    (hu : env.newUploader = true) :
    ((∃ i f, chunkFiles[i]? = some f ∧ (env.stat f = none ∨ env.uploadFile i f = none)) →
      ∃ e, uploadChunks env chunkFiles = .error e) ∧
    ((∀ i f, chunkFiles[i]? = some f → env.stat f ≠ none ∧ env.uploadFile i f ≠ none) →
      ∃ m, uploadChunks env chunkFiles = .ok m ∧ (mapKeys m).Nodup ∧
        (∀ p, p ∈ mapKeys m ↔ p ∈ chunkFiles) ∧
        ∀ p ∈ chunkFiles, ∃ h, calculateFileRootHash env.stat p = .ok h ∧
          mapLookup m p = some h ∧ h ≠ []) := by
  obtain ⟨n, hsel, hpos⟩ := hn
  have hn0 : ¬ n = 0 := by omega
  have hrun : uploadChunks env chunkFiles =
      match runWorkers env chunkFiles with
      | (_, e :: _) => .error e
      | (rootHashes, []) => .ok rootHashes := by
    unfold uploadChunks
    simp [hc, hsel, hn0, hu]
  constructor
  · rintro ⟨i, f, hf, hfail⟩
    have hne : (runWorkers env chunkFiles).2 ≠ [] := by
      intro hnil
      obtain ⟨h, hh⟩ := ((foldl_workers_errors env chunkFiles.enum ([], [])).1 hnil).2 (i, f)
        (List.mem_enum_iff_getElem?.2 hf)
      obtain ⟨h1, h2⟩ := (uploadWorker_ok_iff env i f h).1 hh
      rcases hfail with hfail | hfail
      · rw [calculateFileRootHash_error_of_stat env.stat f hfail] at h1
        cases h1
      · exact h2 hfail
    rw [hrun]
    rcases hr : runWorkers env chunkFiles with ⟨m, errs⟩
    rw [hr] at hne
    cases errs with
    | nil => exact absurd rfl hne
    | cons e es => exact ⟨e, rfl⟩
  · intro hall
    have hok : ∀ w ∈ chunkFiles.enum, ∃ h, uploadWorker env w.1 w.2 = .ok h := by
      intro w hw
      have hw' := List.mem_enum_iff_getElem?.1 hw
      obtain ⟨r, hr⟩ := calculateFileRootHash_ok_of_stat env.stat w.2 (hall w.1 w.2 hw').1
      exact ⟨r, (uploadWorker_ok_iff env w.1 w.2 r).2 ⟨hr, (hall w.1 w.2 hw').2⟩⟩
    have herr : (runWorkers env chunkFiles).2 = [] :=
      (foldl_workers_errors env chunkFiles.enum ([], [])).2 ⟨rfl, hok⟩
    have hmap : (runWorkers env chunkFiles).1
        = chunkFiles.enum.foldl (fun m w => mapSet m w.2 (recordedHash env w.2)) [] :=
      foldl_workers_map env chunkFiles.enum ([], []) hok
    have hlook : ∀ k, mapLookup (runWorkers env chunkFiles).1 k
        = if ∃ w ∈ chunkFiles.enum, w.2 = k
          then (chunkFiles.enum.find? (fun w => w.2 = k)).map (fun w => recordedHash env w.2)
          else none := by
      intro k
      rw [hmap, mapLookup_foldl_mapSet (fun w : Nat × Str => w.2)
        (fun w => recordedHash env w.2) chunkFiles.enum [] k
        (by intro a _ b _ hab; simp only at hab ⊢; rw [hab])]
      rfl
    have hfound : ∀ p ∈ chunkFiles, mapLookup (runWorkers env chunkFiles).1 p
        = some (recordedHash env p) := by
      intro p hp
      have hex : ∃ w ∈ chunkFiles.enum, w.2 = p := (exists_enum_snd_iff chunkFiles p).2 hp
      rw [hlook, if_pos hex]
      cases hfind : chunkFiles.enum.find? (fun w => decide (w.2 = p)) with
      | none =>
        rw [List.find?_eq_none] at hfind
        obtain ⟨w, hw, hwp⟩ := hex
        have := hfind w hw
        simp [hwp] at this
      | some y =>
        have hy := List.find?_some hfind
        simp only [decide_eq_true_eq] at hy
        simp [hy]
    rw [hrun]
    rcases hr : runWorkers env chunkFiles with ⟨m, errs⟩
    rw [hr] at herr hmap hlook hfound
    simp only at herr hmap hlook hfound
    subst herr
    refine ⟨m, rfl, ?_, ?_, ?_⟩
    · rw [hmap]
      exact nodup_foldl_mapSet _ _ _ _ List.nodup_nil
    · intro p
      rw [mem_mapKeys_iff]
      by_cases hp : p ∈ chunkFiles
      · simp [hfound p hp, hp]
      · have hex : ¬ ∃ w ∈ chunkFiles.enum, w.2 = p :=
          fun h => hp ((exists_enum_snd_iff chunkFiles p).1 h)
        rw [hlook, if_neg hex]
        simp [hp]
    · intro p hp
      obtain ⟨i, hi⟩ := List.getElem?_of_mem hp
      obtain ⟨h, hh⟩ := calculateFileRootHash_ok_of_stat env.stat p (hall i p hi).1
      refine ⟨h, hh, ?_, calculateFileRootHash_ne_nil env.stat p h hh⟩
      rw [hfound p hp]
      simp [recordedHash, hh]

/-! ## Retrieval coordinator -/

theorem mapSet_of_not_mem (m : GoMap) (k v : Str) (h : k ∉ mapKeys m) :
    mapSet m k v = m ++ [(k, v)] := by
  induction m with
  | nil => rfl
  | cons e m ih =>
    obtain ⟨a, b⟩ := e
    simp only [mapKeys, List.map_cons, List.mem_cons, not_or] at h
    have h1 : ¬ a = k := fun h' => h.1 h'.symm
    have := ih h.2
    simp [mapSet, h1, this]

/-- Storing entries with pairwise distinct new keys appends them in order. -/
theorem foldl_mapSet_of_nodup (t : List (Str × Str)) (m : GoMap)
    (h : (mapKeys m ++ t.map Prod.fst).Nodup) :
    t.foldl (fun m e => mapSet m e.1 e.2) m = m ++ t := by
  induction t generalizing m with
  | nil => simp
  | cons e es ih =>
    have hk : e.1 ∉ mapKeys m := by
      intro hmem
      rw [List.nodup_append] at h
      exact h.2.2 hmem (by simp)
    rw [List.foldl_cons, mapSet_of_not_mem m e.1 e.2 hk, ih]
    · simp
    · simpa [mapKeys, List.append_assoc] using h

/-- A run of the fragment loop in which every hash is present and every download succeeds. -/
theorem mergeLoop_success (download : Str → Str → Option (List Byte)) (m : GoMap)
    (s : List ((Str × Str) × List Byte)) (out : List Byte) (calls : List (Str × Str))
    (h : ∀ t ∈ s, mapGet m t.1.1 = t.1.2 ∧ t.1.2 ≠ [] ∧
      download t.1.2 (t.1.1 ++ ".downloaded".toList) = some t.2) :
    mergeLoop download m (s.map (fun t => t.1.1)) out calls =
      { err := none
        outFile := some (out ++ (s.map Prod.snd).flatten)
        calls := calls ++ s.map (fun t => callOf t.1) } := by
  induction s generalizing out calls with
  | nil => simp [mergeLoop]
  | cons t ts ih =>
    obtain ⟨h1, h2, h3⟩ := h t (List.mem_cons_self _ _)
    simp only [List.map_cons, mergeLoop, h1, h2, if_false, h3]
    rw [ih _ _ (fun x hx => h x (List.mem_cons_of_mem _ hx))]
    simp [callOf, List.append_assoc]

/-- A run of the fragment loop that meets a path without a hash. -/
theorem mergeLoop_missing (download : Str → Str → Option (List Byte)) (m : GoMap)
    (pre : List Str) (path : Str) (post : List Str) (out : List Byte) (calls : List (Str × Str))
    (hpath : mapGet m path = []) :
    (mergeLoop download m (pre ++ path :: post) out calls).err ≠ none ∧
    (∃ n, (mergeLoop download m (pre ++ path :: post) out calls).calls
      = calls ++ (pre.take n).map (fun q => (mapGet m q, q ++ ".downloaded".toList))) ∧
    ((∀ q ∈ pre, mapGet m q ≠ [] ∧
        ∃ d, download (mapGet m q) (q ++ ".downloaded".toList) = some d) →
      (mergeLoop download m (pre ++ path :: post) out calls).err = some (.missingHash path)) := by
  induction pre generalizing out calls with
  | nil =>
    have e : mergeLoop download m ([] ++ path :: post) out calls
        = { err := some (.missingHash path), outFile := some out, calls := calls } := by
      simp [mergeLoop, hpath]
    rw [e]
    exact ⟨by simp, ⟨0, by simp⟩, fun _ => rfl⟩
  | cons q qs ih =>
    simp only [List.cons_append, mergeLoop]
    by_cases hq : mapGet m q = []
    · rw [if_pos hq]
      refine ⟨by simp, ⟨0, by simp⟩, ?_⟩
      intro hall
      exact absurd hq (hall q (List.mem_cons_self _ _)).1
    · rw [if_neg hq]
      cases hd : download (mapGet m q) (q ++ ".downloaded".toList) with
      | none =>
        refine ⟨by simp, ⟨1, by simp⟩, ?_⟩
        intro hall
        obtain ⟨_, d, hd'⟩ := hall q (List.mem_cons_self _ _)
        rw [hd] at hd'
        cases hd'
      | some d =>
        obtain ⟨h1, ⟨n, h2⟩, h3⟩ := ih (out ++ d) (calls ++ [(mapGet m q, q ++ ".downloaded".toList)])
        refine ⟨h1, ⟨n + 1, ?_⟩, ?_⟩
        · have h2' := h2
          simp only [List.append_assoc, List.singleton_append] at h2'
          simp only [List.take_succ_cons, List.map_cons]
          exact h2' 
        · intro hall
          exact h3 (fun x hx => hall x (List.mem_cons_of_mem _ hx))

theorem nodup_keys_of_loadHashMap (data : Option Str) (m : GoMap)
    (h : loadHashMap data = .ok m) : (mapKeys m).Nodup := by
  unfold loadHashMap at h
  cases data with
  | none => cases h
  | some d =>
    simp only [Except.ok.injEq] at h
    rw [← h]
    exact nodup_foldl_loadLine _ [] List.nodup_nil

/-- In a sorted list without repetition, what stands before an element is not above it. -/
theorem not_mem_pre_of_le (pre : List Str) (path : Str) (post : List Str)
    (hs : (pre ++ path :: post).Sorted StrLE) (hn : (pre ++ path :: post).Nodup)
    (q : Str) (hq : strLe path q = true) : q ∉ pre := by
  intro hmem
  have h1 : StrLE q path := by
    have := List.pairwise_append.1 hs
    exact this.2.2 q hmem path (List.mem_cons_self _ _)
  have heq : q = path := strLe_antisymm h1 hq
  subst heq
  rw [List.nodup_append] at hn
  exact hn.2.2 hmem (List.mem_cons_self _ _)

theorem mem_pre_of_le (pre : List Str) (path : Str) (post : List Str)
    (hs : (pre ++ path :: post).Sorted StrLE)
    (q : Str) (hmem : q ∈ pre ++ path :: post) (hne : q ≠ path) (hq : strLe q path = true) :
    q ∈ pre := by
  rcases List.mem_append.1 hmem with h | h
  · exact h
  · rcases List.mem_cons.1 h with h | h
    · exact absurd h hne
    · have h1 : StrLE path q := by
        have := (List.pairwise_append.1 hs).2.1
        exact (List.pairwise_cons.1 this).1 q h
      exact absurd (strLe_antisymm hq h1) hne

/-- Claim C7.  Whenever the manifest, as loaded, holds an entry with an empty
hash for `path`, `downloadAndMergeChunks` returns an error, and it makes no
`Download` call for `path` or for any path that sorts at or after it; when the
backend session is set up and every loaded path sorted before `path` has a hash
and downloads, the error returned is the missing-hash error for `path`. -/
theorem missing_hash_detected (env : DownloadEnv) (data : Str) (m : GoMap) (path : Str)
    (hm : loadHashMap (some data) = .ok m) (he : (path, []) ∈ m) :
    (downloadAndMergeChunks env (some data)).err ≠ none ∧
    (∀ q, strLe path q = true →
      ∀ c ∈ (downloadAndMergeChunks env (some data)).calls, c.2 ≠ q ++ ".downloaded".toList) ∧
    (env.newClient = true → env.selectNodes = true → env.newDownloader = true →
      (∀ q ∈ mapKeys m, q ≠ path → strLe q path = true →
        mapGet m q ≠ [] ∧ ∃ d, env.download (mapGet m q) (q ++ ".downloaded".toList) = some d) →
      (downloadAndMergeChunks env (some data)).err = some (.missingHash path)) := by
  have hnd := nodup_keys_of_loadHashMap _ m hm
  have hget : mapGet m path = [] := by
    simp [mapGet, (mem_iff_mapLookup m hnd path []).1 he]
  have hkey : path ∈ sortStrings (mapKeys m) :=
    mem_sortStrings.2 (List.mem_map.2 ⟨(path, []), he, rfl⟩)
  obtain ⟨pre, post, hsplit⟩ := List.append_of_mem hkey
  have hsorted : (pre ++ path :: post).Sorted StrLE := hsplit ▸ sortStrings_sorted _
  have hnodup : (pre ++ path :: post).Nodup :=
    hsplit ▸ (sortStrings_perm (mapKeys m)).nodup_iff.2 hnd
  obtain ⟨h1, ⟨n, h2⟩, h3⟩ := mergeLoop_missing env.download m pre path post [] [] hget
  have hrun : downloadAndMergeChunks env (some data) =
      if ¬ env.newClient then { err := some .newClient, outFile := none, calls := [] }
      else if ¬ env.selectNodes then { err := some .selectNodes, outFile := none, calls := [] }
      else if ¬ env.newDownloader then { err := some .newDownloader, outFile := none, calls := [] }
      else mergeLoop env.download m (pre ++ path :: post) [] [] := by
    unfold downloadAndMergeChunks
    rw [hm]
    simp only [hsplit]
  rw [hrun]
  by_cases hc : env.newClient = true
  · by_cases hs : env.selectNodes = true
    · by_cases hd : env.newDownloader = true
      · simp only [hc, hs, hd, not_true_eq_false, if_false]
        refine ⟨h1, ?_, ?_⟩
        · intro q hq c hc' heq
          rw [h2, List.nil_append] at hc'
          obtain ⟨q', hq', rfl⟩ := List.mem_map.1 hc'
          simp only at heq
          have hqq : q' = q := List.append_cancel_right heq
          subst hqq
          exact not_mem_pre_of_le pre path post hsorted hnodup q' hq (List.mem_of_mem_take hq')
        · intro _ _ _ hall
          apply h3
          intro q hq
          have hq1 : q ∈ mapKeys m := by
            apply mem_sortStrings.1
            rw [hsplit]
            exact List.mem_append_left _ hq
          have hq2 : q ≠ path := by
            intro heq
            subst heq
            rw [List.nodup_append] at hnodup
            exact hnodup.2.2 hq (List.mem_cons_self _ _)
          have hq3 : strLe q path = true :=
            (List.pairwise_append.1 hsorted).2.2 q hq path (List.mem_cons_self _ _)
          exact hall q hq1 hq2 hq3
      · simp [hc, hs, hd]
    · simp [hc, hs]
  · simp [hc]

/-- Witness for `missing_hash_detected`: the second of three entries has no hash. -/
theorem missing_hash_detected_witness :
    (downloadAndMergeChunks
        { newClient := true, selectNodes := true, newDownloader := true,
          download := fun _ _ => some [1, 2] }
        (some "a|0x1\nb|\nc|0x3\n".toList)).err ≠ none ∧
    (downloadAndMergeChunks
        { newClient := true, selectNodes := true, newDownloader := true,
          download := fun _ _ => some [1, 2] }
        (some "a|0x1\nb|\nc|0x3\n".toList))
      = { err := some (.missingHash "b".toList), outFile := some [1, 2],
          calls := [("0x1".toList, "a.downloaded".toList)] } :=
  ⟨(missing_hash_detected
      { newClient := true, selectNodes := true, newDownloader := true,
        download := fun _ _ => some [1, 2] }
      "a|0x1\nb|\nc|0x3\n".toList
      [("a".toList, "0x1".toList), ("b".toList, []), ("c".toList, "0x3".toList)]
      "b".toList (by decide) (by decide)).1,
   by decide⟩

/-! ## Fragment manifests -/

theorem mem_of_mem_Split (s : Str) (sep : Char) (p : Str) (hp : p ∈ Split s sep)
    (c : Char) (hc : c ∈ p) : c ∈ s := by
  induction s generalizing p with
  | nil =>
    simp only [Split, List.mem_singleton] at hp
    subst hp
    exact hc
  | cons a as ih =>
    unfold Split at hp
    by_cases ha : a = sep
    · rw [if_pos ha] at hp
      rcases List.mem_cons.1 hp with h | h
      · subst h
        simp at hc
      · exact List.mem_cons_of_mem _ (ih p h hc)
    · rw [if_neg ha] at hp
      cases hs : Split as sep with
      | nil => exact absurd hs (Split_ne_nil as sep)
      | cons q qs =>
        rw [hs] at hp ih
        simp only [List.mem_cons] at hp
        rcases hp with h | h
        · subst h
          rcases List.mem_cons.1 hc with h' | h'
          · rw [h']
            exact List.mem_cons_self _ _
          · exact List.mem_cons_of_mem _ (ih q (List.mem_cons_self _ _) h')
        · exact List.mem_cons_of_mem _ (ih p (List.mem_cons_of_mem _ h) hc)

theorem cleanStep_chars (dir : Str) (rooted : Bool) (st : CleanState) (elem : Str)
    (hst : ∀ c ∈ st.out, c ∈ dir ∨ c = '/' ∨ c = '.')
    (hel : ∀ c ∈ elem, c ∈ dir) :
    ∀ c ∈ (cleanStep rooted st elem).out, c ∈ dir ∨ c = '/' ∨ c = '.' := by
  intro c hc
  unfold cleanStep at hc
  split at hc
  · exact hst c hc
  · split at hc
    · split at hc
      · exact hst c (List.mem_of_mem_take hc)
      · split at hc
        · exact hst c hc
        · simp only [List.mem_append, List.mem_cons, List.mem_singleton] at hc
          rcases hc with hc | hc
          · split at hc
            · rcases List.mem_append.1 hc with h | h
              · exact hst c h
              · simp only [List.mem_singleton] at h
                exact Or.inr (Or.inl h)
            · exact hst c hc
          · rcases hc with h | h | h
            · exact Or.inr (Or.inr h)
            · exact Or.inr (Or.inr h)
            · simp at h
    · simp only [List.mem_append] at hc
      rcases hc with hc | hc
      · split at hc
        · rcases List.mem_append.1 hc with h | h
          · exact hst c h
          · simp only [List.mem_singleton] at h
            exact Or.inr (Or.inl h)
        · exact hst c hc
      · exact Or.inl (hel c hc)

theorem foldl_cleanStep_chars (dir : Str) (rooted : Bool) (elems : List Str) (st : CleanState)
    (hst : ∀ c ∈ st.out, c ∈ dir ∨ c = '/' ∨ c = '.')
    (hel : ∀ e ∈ elems, ∀ c ∈ e, c ∈ dir) :
    ∀ c ∈ (elems.foldl (cleanStep rooted) st).out, c ∈ dir ∨ c = '/' ∨ c = '.' := by
  induction elems generalizing st with
  | nil => exact hst
  | cons e es ih =>
    rw [List.foldl_cons]
    apply ih
    · exact cleanStep_chars dir rooted st e hst (hel e (List.mem_cons_self _ _))
    · exact fun x hx => hel x (List.mem_cons_of_mem _ hx)

theorem ite_sep_chars (dir : Str) (st : CleanState) (P : Prop) [Decidable P]
    (hinv : ∀ c ∈ st.out, c ∈ dir ∨ c = '/' ∨ c = '.') :
    ∀ c ∈ (if P then st.out ++ ['/'] else st.out), c ∈ dir ∨ c = '/' ∨ c = '.' := by
  intro c hc
  by_cases hp : P
  · rw [if_pos hp] at hc
    rcases List.mem_append.1 hc with h | h
    · exact hinv c h
    · simp only [List.mem_singleton] at h
      exact Or.inr (Or.inl h)
  · rw [if_neg hp] at hc
    exact hinv c hc

/-- Cleaning a directory introduces no character other than `/` and `.`. -/
theorem joinPrefix_chars (dir : Str) (c : Char) (hc : c ∈ joinPrefix dir) :
    c ∈ dir ∨ c = '/' ∨ c = '.' := by
  unfold joinPrefix at hc
  by_cases hd : dir = []
  · simp [hd] at hc
  · rw [if_neg hd] at hc
    have hinv := foldl_cleanStep_chars dir (decide (dir.head? = some '/')) (Split dir '/')
      (if (decide (dir.head? = some '/')) = true then { out := ['/'], dotdot := 1 }
        else { out := [], dotdot := 0 })
      (by
        intro x hx
        split at hx
        · simp only [List.mem_singleton] at hx
          exact Or.inr (Or.inl hx)
        · simp at hx)
      (fun e he x hx => mem_of_mem_Split dir '/' e he x hx)
    exact ite_sep_chars dir _ _ hinv c hc

theorem trimLeft_append_of_head (p b : Str) (c : Char) (bs : Str) (hb : b = c :: bs)
    (hc : isSpace c = false) : trimLeft (p ++ b) = trimLeft p ++ b := by
  subst hb
  induction p with
  | nil => simp [trimLeft, List.dropWhile, hc]
  | cons x xs ih =>
    unfold trimLeft at ih ⊢
    by_cases hx : isSpace x = true
    · simp [List.dropWhile, hx, ih]
    · simp [List.dropWhile, hx]

theorem chunkBaseName_head (i : Nat) (hi : i < numChunks) :
    ∃ bs, chunkBaseName i = 'c' :: bs := by
  unfold numChunks at hi
  interval_cases i <;> exact ⟨_, rfl⟩

theorem chunkBaseName_chars (i : Nat) (hi : i < numChunks) :
    '|' ∉ chunkBaseName i ∧ '\n' ∉ chunkBaseName i := by
  unfold numChunks at hi
  interval_cases i <;> decide

theorem chunkBaseName_le (i j : Nat) (hij : i < j) (hj : j < numChunks) :
    strLe (chunkBaseName i) (chunkBaseName j) = true := by
  unfold numChunks at hj
  interval_cases j <;> interval_cases i <;> decide

theorem trimLeft_chunkFileName (outputDir : Str) (i : Nat) (hi : i < numChunks) :
    trimLeft (chunkFileName outputDir i) = chunkKey outputDir i := by
  obtain ⟨bs, hb⟩ := chunkBaseName_head i hi
  rw [chunkFileName_eq outputDir i hi]
  exact trimLeft_append_of_head _ _ 'c' bs hb (by decide)

theorem chunkFileName_clean (outputDir : Str) (i : Nat) (hi : i < numChunks)
    (h1 : '|' ∉ outputDir) (h2 : '\n' ∉ outputDir) :
    '|' ∉ chunkFileName outputDir i ∧ '\n' ∉ chunkFileName outputDir i := by
  rw [chunkFileName_eq outputDir i hi]
  obtain ⟨hb1, hb2⟩ := chunkBaseName_chars i hi
  constructor
  · intro h
    rcases List.mem_append.1 h with h | h
    · rcases joinPrefix_chars outputDir '|' h with h' | h' | h'
      · exact h1 h'
      · exact absurd h' (by decide)
      · exact absurd h' (by decide)
    · exact hb1 h
  · intro h
    rcases List.mem_append.1 h with h | h
    · rcases joinPrefix_chars outputDir '\n' h with h' | h' | h'
      · exact h2 h'
      · exact absurd h' (by decide)
      · exact absurd h' (by decide)
    · exact hb2 h

theorem sorted_prefixed (p : Str) (k : Nat) (hk : k ≤ numChunks) :
    ((List.range k).map (fun i => p ++ chunkBaseName i)).Sorted StrLE := by
  unfold List.Sorted
  rw [List.pairwise_map]
  apply List.Pairwise.imp_of_mem _ (List.pairwise_lt_range k)
  intro i j _ hj hij
  show strLe (p ++ chunkBaseName i) (p ++ chunkBaseName j) = true
  rw [strLe_append_left]
  exact chunkBaseName_le i j hij (lt_of_lt_of_le (List.mem_range.1 hj) hk)

theorem nodup_prefixed (p : Str) (k : Nat) (hk : k ≤ numChunks) :
    ((List.range k).map (fun i => p ++ chunkBaseName i)).Nodup := by
  apply List.Nodup.map_on
  · intro i hi j hj h
    exact chunkBaseName_inj i j
      (lt_of_lt_of_le (List.mem_range.1 hi) hk) (lt_of_lt_of_le (List.mem_range.1 hj) hk)
      (List.append_cancel_left h)
  · exact List.nodup_range k

theorem chunkFileNames_eq (outputDir : Str) (k : Nat) (hk : k ≤ numChunks) :
    (List.range k).map (chunkFileName outputDir)
      = (List.range k).map (fun i => joinPrefix outputDir ++ chunkBaseName i) := by
  apply List.map_congr_left
  intro i hi
  exact chunkFileName_eq outputDir i (lt_of_lt_of_le (List.mem_range.1 hi) hk)

/-- The fragment names are in ascending order when listed by index. -/
theorem sorted_chunkFileNames (outputDir : Str) (k : Nat) (hk : k ≤ numChunks) :
    ((List.range k).map (chunkFileName outputDir)).Sorted StrLE := by
  rw [chunkFileNames_eq outputDir k hk]
  exact sorted_prefixed _ k hk

/-- Retrieval from a manifest text of clean entries whose trimmed keys are
distinct: with the backend set up, every hash present and every download
successful, the fragments are fetched and appended in ascending key order. -/
theorem retrieve_entries (env : DownloadEnv)
    (hc : env.newClient = true) (hs : env.selectNodes = true) (hd : env.newDownloader = true)
    (es : List (Str × Str)) (hclean : ∀ e ∈ es, EntryClean e)
    (s : List ((Str × Str) × List Byte))
    (hperm : (es.map (fun e => (trimLeft e.1, trimRight e.2))).Perm (s.map Prod.fst))
    (hsorted : (s.map (fun t => t.1.1)).Sorted StrLE)
    (hnodup : (s.map (fun t => t.1.1)).Nodup)
    (hdl : ∀ t ∈ s, t.1.2 ≠ [] ∧
      env.download t.1.2 (t.1.1 ++ ".downloaded".toList) = some t.2) :
    downloadAndMergeChunks env (some (renderLines es)) =
      { err := none
        outFile := some (s.map Prod.snd).flatten
        calls := s.map (fun t => callOf t.1) } := by
  have hkeys : ((es.map (fun e => (trimLeft e.1, trimRight e.2))).map Prod.fst).Perm
      (s.map (fun t => t.1.1)) := by
    have := hperm.map Prod.fst
    simpa [List.map_map, Function.comp] using this
  have hTnodup : (mapKeys (es.map (fun e => (trimLeft e.1, trimRight e.2)))).Nodup :=
    hkeys.nodup_iff.2 hnodup
  have hload : loadHashMap (some (renderLines es))
      = .ok (es.map (fun e => (trimLeft e.1, trimRight e.2))) := by
    rw [loadHashMap_renderLines es hclean]
    have := foldl_mapSet_of_nodup (es.map (fun e => (trimLeft e.1, trimRight e.2))) []
      (by simpa [mapKeys] using hTnodup)
    rw [List.foldl_map] at this
    rw [this]
    rfl
  have hsort : sortStrings (mapKeys (es.map (fun e => (trimLeft e.1, trimRight e.2))))
      = s.map (fun t => t.1.1) :=
    sortStrings_eq_of_perm hkeys hsorted
  unfold downloadAndMergeChunks
  rw [hload]
  simp only [hc, hs, hd, not_true_eq_false, if_false]
  rw [hsort]
  have := mergeLoop_success env.download (es.map (fun e => (trimLeft e.1, trimRight e.2))) s [] []
    (by
      intro t ht
      have hmem : t.1 ∈ es.map (fun e => (trimLeft e.1, trimRight e.2)) :=
        hperm.mem_iff.2 (List.mem_map.2 ⟨t, ht, rfl⟩)
      have hl := (mem_iff_mapLookup _ hTnodup t.1.1 t.1.2).1 hmem
      exact ⟨by simp [mapGet, hl], hdl t ht⟩)
  rw [this]
  simp

/-- Retrieval from a manifest that lists the first `k` fragment names in any
order, each with a readable hash: the fragments are fetched and appended in
index order. -/
theorem retrieve_fragments (env : DownloadEnv)
    (hc : env.newClient = true) (hs : env.selectNodes = true) (hd : env.newDownloader = true)
    (outputDir : Str) (h1 : '|' ∉ outputDir) (h2 : '\n' ∉ outputDir)
    (k : Nat) (hk : k ≤ numChunks) (perm : List Str)
    (hperm : perm.Perm ((List.range k).map (chunkFileName outputDir)))
    (hash : Str → Str)
    (hhash : ∀ i, i < k → hash (chunkFileName outputDir i) ≠ [] ∧
      '|' ∉ hash (chunkFileName outputDir i) ∧ '\n' ∉ hash (chunkFileName outputDir i) ∧
      ∀ c, (hash (chunkFileName outputDir i)).getLast? = some c → isSpace c = false)
    (data : Nat → List Byte)
    (hdl : ∀ i, i < k → env.download (hash (chunkFileName outputDir i))
      (trimLeft (chunkFileName outputDir i) ++ ".downloaded".toList) = some (data i)) :
    downloadAndMergeChunks env (some (renderLines (perm.map (fun c => (c, hash c))))) =
      { err := none
        outFile := some ((List.range k).map data).flatten
        calls := (List.range k).map (fun i =>
          (hash (chunkFileName outputDir i),
            trimLeft (chunkFileName outputDir i) ++ ".downloaded".toList)) } := by
  have hkeys : (List.range k).map (fun i => trimLeft (chunkFileName outputDir i))
      = (List.range k).map (fun i => trimLeft (joinPrefix outputDir) ++ chunkBaseName i) := by
    apply List.map_congr_left
    intro i hi
    exact trimLeft_chunkFileName outputDir i (lt_of_lt_of_le (List.mem_range.1 hi) hk)
  have h := retrieve_entries env hc hs hd (perm.map (fun c => (c, hash c)))
    (by
      intro e he
      obtain ⟨c, hcm, rfl⟩ := List.mem_map.1 he
      obtain ⟨i, hi, rfl⟩ := List.mem_map.1 (hperm.mem_iff.1 hcm)
      have hik := List.mem_range.1 hi
      obtain ⟨hn1, hn2⟩ := chunkFileName_clean outputDir i (lt_of_lt_of_le hik hk) h1 h2
      exact ⟨hn1, hn2, (hhash i hik).2.1, (hhash i hik).2.2.1⟩)
    ((List.range k).map (fun i =>
      ((trimLeft (chunkFileName outputDir i), hash (chunkFileName outputDir i)), data i)))
    (by
      rw [List.map_map, List.map_map]
      have hp := hperm.map (fun c => (trimLeft c, trimRight (hash c)))
      rw [List.map_map] at hp
      refine hp.trans (List.Perm.of_eq ?_)
      apply List.map_congr_left
      intro i hi
      simp only [Function.comp]
      rw [trimRight_eq_self _ (hhash i (List.mem_range.1 hi)).2.2.2])
    (by
      rw [List.map_map]
      have := sorted_prefixed (trimLeft (joinPrefix outputDir)) k hk
      rw [← hkeys] at this
      exact this)
    (by
      rw [List.map_map]
      have := nodup_prefixed (trimLeft (joinPrefix outputDir)) k hk
      rw [← hkeys] at this
      exact this)
    (by
      intro t ht
      obtain ⟨i, hi, rfl⟩ := List.mem_map.1 ht
      exact ⟨(hhash i (List.mem_range.1 hi)).1, hdl i (List.mem_range.1 hi)⟩)
  rw [h, List.map_map, List.map_map]
  rfl

/-- Claim C5, as stated, fails.  Under the output directory `a|b` the ten
fragment names are `a|b/chunk_000.dat` to `a|b/chunk_009.dat`; in a manifest
that lists them in index order, each with the hash `0x1`, every line has three
fields, so with the backend set up and every download succeeding
`downloadAndMergeChunks` fetches no fragment and writes an empty file. -/
theorem sort_order_counterexample :
    chunkFileName "a|b".toList 0 = "a|b/chunk_000.dat".toList ∧
    chunkFileName "a|b".toList 9 = "a|b/chunk_009.dat".toList ∧
    downloadAndMergeChunks
        { newClient := true, selectNodes := true, newDownloader := true,
          download := fun _ _ => some [7] }
        (some (renderLines (((List.range numChunks).map (chunkFileName "a|b".toList)).map
          (fun c => (c, "0x1".toList)))))
      = { err := none, outFile := some [], calls := [] } := by
  decide

/-- Claim C5, amended.  For every arrangement `perm` of the ten fragment names
that `splitFile` builds under one output directory: `sort.Strings` puts them in
index order (the order of the names is the order of their indices),
`saveHashMap` given the names as `perm` writes the lines of fragments 000, 001,
..., 009 in that order, and, when the directory holds no `|` and no newline,
each line carries a hash that is non-empty, holds no `|` and no newline and
does not end with white space, the backend is set up and every download
succeeds, `downloadAndMergeChunks` given a manifest whose lines stand in the
order `perm` fetches and appends the fragments in the order 000, 001, ..., 009. -/
theorem sort_order_determinism (outputDir : Str) (perm : List Str)
    (hperm : perm.Perm ((List.range numChunks).map (chunkFileName outputDir))) :
    sortStrings perm = (List.range numChunks).map (chunkFileName outputDir) ∧
    (∀ i j, i < j → j < numChunks →
      strLe (chunkFileName outputDir i) (chunkFileName outputDir j) = true ∧
      strLe (chunkFileName outputDir j) (chunkFileName outputDir i) = false) ∧
    (∀ rootHashes : GoMap, saveHashMap perm rootHashes
      = renderLines ((List.range numChunks).map (fun i =>
          (chunkFileName outputDir i, mapGet rootHashes (chunkFileName outputDir i))))) ∧
    (∀ (env : DownloadEnv) (hash : Str → Str) (data : Nat → List Byte),
      env.newClient = true → env.selectNodes = true → env.newDownloader = true →
      '|' ∉ outputDir → '\n' ∉ outputDir →
      (∀ i, i < numChunks → hash (chunkFileName outputDir i) ≠ [] ∧
        '|' ∉ hash (chunkFileName outputDir i) ∧ '\n' ∉ hash (chunkFileName outputDir i) ∧
        ∀ c, (hash (chunkFileName outputDir i)).getLast? = some c → isSpace c = false) →
      (∀ i, i < numChunks → env.download (hash (chunkFileName outputDir i))
        (trimLeft (chunkFileName outputDir i) ++ ".downloaded".toList) = some (data i)) →
      downloadAndMergeChunks env (some (renderLines (perm.map (fun c => (c, hash c))))) =
        { err := none
          outFile := some ((List.range numChunks).map data).flatten
          calls := (List.range numChunks).map (fun i =>
            (hash (chunkFileName outputDir i),
              trimLeft (chunkFileName outputDir i) ++ ".downloaded".toList)) }) := by
  have hsort : sortStrings perm = (List.range numChunks).map (chunkFileName outputDir) :=
    sortStrings_eq_of_perm hperm (sorted_chunkFileNames outputDir numChunks (le_refl _))
  refine ⟨hsort, ?_, ?_, ?_⟩
  · intro i j hij hj
    have hle : strLe (chunkFileName outputDir i) (chunkFileName outputDir j) = true := by
      rw [chunkFileName_eq outputDir i (lt_trans hij hj), chunkFileName_eq outputDir j hj,
        strLe_append_left]
      exact chunkBaseName_le i j hij hj
    refine ⟨hle, ?_⟩
    cases hji : strLe (chunkFileName outputDir j) (chunkFileName outputDir i) with
    | false => rfl
    | true =>
      have := chunkFileName_inj outputDir i j (lt_trans hij hj) hj (strLe_antisymm hle hji)
      omega
  · intro rootHashes
    rw [saveHashMap_eq, hsort, List.map_map]
    rfl
  · intro env hash data hc hs hd h1 h2 hhash hdl
    exact retrieve_fragments env hc hs hd outputDir h1 h2 numChunks (le_refl _) perm hperm
      hash hhash data hdl

/-- Witness for `sort_order_determinism`: the ten names under `chunks` in
descending order, each with the hash `0xab`, every download returning one byte. -/
theorem sort_order_determinism_witness :
    sortStrings ((List.range numChunks).map (chunkFileName "chunks".toList)).reverse
      = (List.range numChunks).map (chunkFileName "chunks".toList) ∧
    downloadAndMergeChunks
        { newClient := true, selectNodes := true, newDownloader := true,
          download := fun _ _ => some [7] }
        (some (renderLines
          ((((List.range numChunks).map (chunkFileName "chunks".toList)).reverse).map
            (fun c => (c, "0xab".toList)))))
      = { err := none
          outFile := some ((List.range numChunks).map (fun _ => [(7 : Byte)])).flatten
          calls := (List.range numChunks).map (fun i =>
            ("0xab".toList,
              trimLeft (chunkFileName "chunks".toList i) ++ ".downloaded".toList)) } :=
  ⟨(sort_order_determinism "chunks".toList
      ((List.range numChunks).map (chunkFileName "chunks".toList)).reverse
      (List.reverse_perm _)).1,
   (sort_order_determinism "chunks".toList
      ((List.range numChunks).map (chunkFileName "chunks".toList)).reverse
      (List.reverse_perm _)).2.2.2
      { newClient := true, selectNodes := true, newDownloader := true,
        download := fun _ _ => some [7] }
      (fun _ => "0xab".toList) (fun _ => [7]) rfl rfl rfl (by decide) (by decide)
      (fun _ _ =>
        ⟨(by decide : "0xab".toList ≠ []), (by decide : '|' ∉ "0xab".toList),
          (by decide : '\n' ∉ "0xab".toList),
          (by decide : ∀ c, "0xab".toList.getLast? = some c → isSpace c = false)⟩)
      (fun _ _ => rfl)⟩

/-! ## End to end -/

/-- Splitting, recording readable hashes and retrieving gives back the source. -/
theorem reconstruct (env : SplitEnv) (source : List Byte) (outputDir : Str) (F : Nat)
    (r : SplitResult) (hF : 0 < F) (hs : source.length < 2 ^ 63)
    (hcap : source.length ≤ numChunks * F)
    (hsplit : splitFile env source outputDir (F : Int) = .ok r)
    (hd1 : '|' ∉ outputDir) (hd2 : '\n' ∉ outputDir)
    (hd3 : ∀ f ∈ r.chunkFiles, ∀ c, f.head? = some c → isSpace c = false)
    (backend : DownloadEnv) (rootHashes : GoMap)
    (hc : backend.newClient = true) (hsel : backend.selectNodes = true)
    (hd : backend.newDownloader = true)
    (hhash : ∀ f ∈ r.chunkFiles, mapGet rootHashes f ≠ [] ∧ '|' ∉ mapGet rootHashes f ∧
      '\n' ∉ mapGet rootHashes f ∧
      ∀ c, (mapGet rootHashes f).getLast? = some c → isSpace c = false)
    (hdl : ∀ f ∈ r.chunkFiles,
      backend.download (mapGet rootHashes f) (f ++ ".downloaded".toList) = readFile r.written f) :
    downloadAndMergeChunks backend (some (saveHashMap r.chunkFiles rootHashes))
      = { err := none
          outFile := some source
          calls := r.chunkFiles.map (fun f => (mapGet rootHashes f, f ++ ".downloaded".toList)) } := by
  have hr := splitFile_inv env source outputDir F hF hs r hsplit
  subst hr
  simp only [fragmentsOf] at hhash hdl hd3 ⊢
  have hk : min (ceilDiv source.length F) numChunks ≤ numChunks := Nat.min_le_right _ _
  have hmem : ∀ i, i < min (ceilDiv source.length F) numChunks →
      chunkFileName outputDir i ∈ (List.range (min (ceilDiv source.length F) numChunks)).map
        (chunkFileName outputDir) :=
    fun i hi => List.mem_map.2 ⟨i, List.mem_range.2 hi, rfl⟩
  have htrim : ∀ i, i < min (ceilDiv source.length F) numChunks →
      trimLeft (chunkFileName outputDir i) = chunkFileName outputDir i :=
    fun i hi => trimLeft_eq_self _ (hd3 _ (hmem i hi))
  have hwritten : ((List.range (min (ceilDiv source.length F) numChunks)).map
      (fun j => (chunkFileName outputDir j, (source.drop (j * F)).take F))).map Prod.fst
      = (List.range (min (ceilDiv source.length F) numChunks)).map (chunkFileName outputDir) := by
    simp [Function.comp]
  have hread : ∀ i, i < min (ceilDiv source.length F) numChunks →
      readFile ((List.range (min (ceilDiv source.length F) numChunks)).map
        (fun j => (chunkFileName outputDir j, (source.drop (j * F)).take F)))
        (chunkFileName outputDir i) = some ((source.drop (i * F)).take F) := by
    intro i hi
    apply readFile_of_nodup
    · rw [hwritten]
      exact nodup_chunkFileNames outputDir _ hk
    · exact List.mem_map.2 ⟨i, List.mem_range.2 hi, rfl⟩
  have h := retrieve_fragments backend hc hsel hd outputDir hd1 hd2
    (min (ceilDiv source.length F) numChunks) hk
    (sortStrings ((List.range (min (ceilDiv source.length F) numChunks)).map
      (chunkFileName outputDir)))
    (sortStrings_perm _) (mapGet rootHashes)
    (fun i hi => hhash _ (hmem i hi))
    (fun j => (source.drop (j * F)).take F)
    (fun i hi => by rw [htrim i hi, hdl _ (hmem i hi), hread i hi])
  rw [saveHashMap_eq, h, flatten_blocks, take_blocks_eq source F hF,
    List.take_of_length_le hcap, List.map_map]
  congr 1
  apply List.map_congr_left
  intro i hi
  simp only [Function.comp]
  rw [htrim i (List.mem_range.1 hi)]

/-- Claim C2, as stated, fails in two ways.  First: a one-byte source split
with `F = 1` under the directory `d`, its fragment recorded with the non-empty
hash `" "` (one space) and a backend that returns the fragment's byte for every
download; the manifest line is read back with an empty hash and retrieval
returns the missing-hash error.  Second: the same source split under the
directory `./ d`, which has no `|`, no line break and no leading white space;
the fragment is `" d/chunk_000.dat"`, the path read back from the manifest is
`d/chunk_000.dat`, and a backend that delivers the recorded hash into the file
beside the fragment, `" d/chunk_000.dat.downloaded"`, is asked for the file
`d/chunk_000.dat.downloaded`, so retrieval returns the download error. -/
theorem end_to_end_counterexample :
    (splitFile reliableSplitEnv [7] "d".toList 1
      = .ok { chunkFiles := ["d/chunk_000.dat".toList],
              written := [("d/chunk_000.dat".toList, [7])] } ∧
    mapGet [("d/chunk_000.dat".toList, " ".toList)] "d/chunk_000.dat".toList ≠ [] ∧
    saveHashMap ["d/chunk_000.dat".toList] [("d/chunk_000.dat".toList, " ".toList)]
      = "d/chunk_000.dat| \n".toList ∧
    downloadAndMergeChunks
        { newClient := true, selectNodes := true, newDownloader := true,
          download := fun _ _ => some [7] }
        (some (saveHashMap ["d/chunk_000.dat".toList]
          [("d/chunk_000.dat".toList, " ".toList)]))
      = { err := some (.missingHash "d/chunk_000.dat".toList), outFile := some [], calls := [] }) ∧
    ('|' ∉ "./ d".toList ∧ '\n' ∉ "./ d".toList ∧
      (∀ c, "./ d".toList.head? = some c → isSpace c = false) ∧
    splitFile reliableSplitEnv [7] "./ d".toList 1
      = .ok { chunkFiles := [" d/chunk_000.dat".toList],
              written := [(" d/chunk_000.dat".toList, [7])] } ∧
    besideFragmentEnv.download "0x1".toList (" d/chunk_000.dat".toList ++ ".downloaded".toList)
      = some [7] ∧
    downloadAndMergeChunks besideFragmentEnv
        (some (saveHashMap [" d/chunk_000.dat".toList]
          [(" d/chunk_000.dat".toList, "0x1".toList)]))
      = { err := some (.download "d/chunk_000.dat".toList), outFile := some [],
          calls := [("0x1".toList, "d/chunk_000.dat.downloaded".toList)] }) := by
  decide

/-- Claim C2, amended.  For every source of length `S` (fitting the `int64`
reported by `Stat`) and fragment size `F > 0` with `S ≤ numChunks * F`, and an
output directory whose path has no `|` and no newline: if `splitFile` returns
fragments none of whose paths starts with white space, they are recorded by
`saveHashMap` with, for each, a hash that is non-empty, holds no `|` and no
newline and does not end with white space, the backend session is obtained and
the download of each recorded hash into the file beside its fragment (the
fragment path followed by `.downloaded`) yields exactly that fragment's bytes,
then `downloadAndMergeChunks` on that manifest returns no error, the bytes it
writes to the output file are the source (so a source of 1,000,000 bytes split
with `F = 300,000` is reconstructed as a file of 1,000,000 bytes), and the
downloads it makes are those of the fragments, in index order. -/
theorem end_to_end_reconstruction (env : SplitEnv) (source : List Byte) (outputDir : Str)
    (F : Nat) (r : SplitResult) (hF : 0 < F) (hs : source.length < 2 ^ 63)
    (hcap : source.length ≤ numChunks * F)
    (hsplit : splitFile env source outputDir (F : Int) = .ok r)
    (hd1 : '|' ∉ outputDir) (hd2 : '\n' ∉ outputDir)
    (hd3 : ∀ f ∈ r.chunkFiles, ∀ c, f.head? = some c → isSpace c = false)
    (backend : DownloadEnv) (rootHashes : GoMap)
    (hc : backend.newClient = true) (hsel : backend.selectNodes = true)
    (hd : backend.newDownloader = true)
    (hhash : ∀ f ∈ r.chunkFiles, mapGet rootHashes f ≠ [] ∧ '|' ∉ mapGet rootHashes f ∧
      '\n' ∉ mapGet rootHashes f ∧
      ∀ c, (mapGet rootHashes f).getLast? = some c → isSpace c = false)
    (hdl : ∀ f ∈ r.chunkFiles,
      backend.download (mapGet rootHashes f) (f ++ ".downloaded".toList) = readFile r.written f) :
    (downloadAndMergeChunks backend (some (saveHashMap r.chunkFiles rootHashes))).err = none ∧
    (downloadAndMergeChunks backend (some (saveHashMap r.chunkFiles rootHashes))).outFile
      = some source ∧
    ((downloadAndMergeChunks backend (some (saveHashMap r.chunkFiles rootHashes))).outFile.map
      List.length) = some source.length ∧
    (source.length = 1000000 →
      ((downloadAndMergeChunks backend (some (saveHashMap r.chunkFiles rootHashes))).outFile.map
        List.length) = some 1000000) ∧
    (downloadAndMergeChunks backend (some (saveHashMap r.chunkFiles rootHashes))).calls
      = r.chunkFiles.map (fun f => (mapGet rootHashes f, f ++ ".downloaded".toList)) := by
  have h := reconstruct env source outputDir F r hF hs hcap hsplit hd1 hd2 hd3 backend
    rootHashes hc hsel hd hhash hdl
  rw [h]
  refine ⟨rfl, rfl, rfl, ?_, rfl⟩
  intro hlen
  simp [hlen]

/-- Witness for `end_to_end_reconstruction`: seven bytes in fragments of three,
recorded under `0xa`, `0xb`, `0xc` and served by `exampleDownloadEnv`. -/
theorem end_to_end_reconstruction_witness :
    (downloadAndMergeChunks exampleDownloadEnv
      (some (saveHashMap ["d/chunk_000.dat".toList, "d/chunk_001.dat".toList,
        "d/chunk_002.dat".toList] exampleHashes))).err = none ∧
    (downloadAndMergeChunks exampleDownloadEnv
      (some (saveHashMap ["d/chunk_000.dat".toList, "d/chunk_001.dat".toList,
        "d/chunk_002.dat".toList] exampleHashes))).outFile = some [1, 2, 3, 4, 5, 6, 7] := by
  have h := end_to_end_reconstruction reliableSplitEnv [1, 2, 3, 4, 5, 6, 7] "d".toList 3
    { chunkFiles := ["d/chunk_000.dat".toList, "d/chunk_001.dat".toList,
        "d/chunk_002.dat".toList],
      written := [("d/chunk_000.dat".toList, [1, 2, 3]),
        ("d/chunk_001.dat".toList, [4, 5, 6]), ("d/chunk_002.dat".toList, [7])] }
    (by decide) (by decide) (by decide) (by decide) (by decide) (by decide) (by decide)
    exampleDownloadEnv exampleHashes rfl rfl rfl (by decide) (by decide)
  exact ⟨h.1, h.2.1⟩

/-- Witness for `uploadChunks_all_or_nothing`: two fragments, every step succeeding. -/
theorem uploadChunks_all_or_nothing_witness :
    ∃ m, uploadChunks exampleUploadEnv ["d/chunk_000.dat".toList, "d/chunk_001.dat".toList]
        = .ok m ∧ (mapKeys m).Nodup ∧
      (∀ p, p ∈ mapKeys m ↔ p ∈ ["d/chunk_000.dat".toList, "d/chunk_001.dat".toList]) ∧
      ∀ p ∈ ["d/chunk_000.dat".toList, "d/chunk_001.dat".toList],
        ∃ h, calculateFileRootHash exampleUploadEnv.stat p = .ok h ∧
          mapLookup m p = some h ∧ h ≠ [] :=
  (uploadChunks_all_or_nothing exampleUploadEnv
    ["d/chunk_000.dat".toList, "d/chunk_001.dat".toList] rfl ⟨1, rfl, by decide⟩ rfl).2
    (fun _ _ _ => ⟨by simp [exampleUploadEnv], by simp [exampleUploadEnv]⟩)

end Fragment
